import Mathlib

/-!
Verification of the BlockchainDB storage stack (Go sources) against its
natural-language specification.  The Go code is shallowly embedded: pure
functions become Lean functions, file-mutating methods become explicit
state-passing functions on functional models of the on-disk state, and
fallible operations return `Except`.  Machine integers (`uint64`, `uint32`)
are modelled as `Nat` with explicit `% 2^w` wherever Go wrap-around can
occur.  Go's `map` iteration order and `sort.Slice`'s instability are the
only nondeterminism in the modelled code; the model fixes one admissible
order (last-write-wins de-duplication in file order, stable sort by bin)
and this is noted at the definitions concerned.
-/

set_option maxRecDepth 10000
set_option linter.unusedVariables false
set_option linter.unnecessarySimpa false
set_option linter.unreachableTactic false
set_option linter.unusedTactic false

namespace BlockchainDB

/-- Bytes are natural numbers (values kept below 256); byte strings are lists. -/
abbrev Bytes := List Nat

/-- Modulus of a 64-bit machine word. -/
def U64 : Nat := 2 ^ 64

/-- Wrapping uint64 subtraction, `a - b` as Go computes it on `uint64`. -/
def sub64 (a b : Nat) : Nat := (a + U64 - b % U64) % U64

/-- Big-endian encoding of a uint64 into 8 bytes (`binary.BigEndian.PutUint64`). -/
def putUint64 (v : Nat) : Bytes :=
  [v / 2 ^ 56 % 256, v / 2 ^ 48 % 256, v / 2 ^ 40 % 256, v / 2 ^ 32 % 256,
   v / 2 ^ 24 % 256, v / 2 ^ 16 % 256, v / 2 ^ 8 % 256, v % 256]

/-- Big-endian encoding of a uint32 into 4 bytes (`binary.BigEndian.PutUint32`). -/
def putUint32 (v : Nat) : Bytes :=
  [v / 2 ^ 24 % 256, v / 2 ^ 16 % 256, v / 2 ^ 8 % 256, v % 256]

/-- Big-endian decoding of the first 8 bytes (`binary.BigEndian.Uint64`).
Go panics when fewer than 8 bytes are available; every call site in the
sources guarantees at least 8 bytes, so missing bytes default to 0 here. -/
def beUint64 (b : Bytes) : Nat :=
  b.getD 0 0 * 2 ^ 56 + b.getD 1 0 * 2 ^ 48 + b.getD 2 0 * 2 ^ 40 +
  b.getD 3 0 * 2 ^ 32 + b.getD 4 0 * 2 ^ 24 + b.getD 5 0 * 2 ^ 16 +
  b.getD 6 0 * 2 ^ 8 + b.getD 7 0

/-- Big-endian decoding of the first 4 bytes (`binary.BigEndian.Uint32`). -/
def beUint32 (b : Bytes) : Nat :=
  b.getD 0 0 * 2 ^ 24 + b.getD 1 0 * 2 ^ 16 + b.getD 2 0 * 2 ^ 8 + b.getD 3 0

/-- Error kinds raised by the modelled code.  Go uses `error` values compared
by message (`err.Error() != "not found"`); each distinct message or panic in
the relevant sources gets one constructor. -/
inductive DBErr where
  /-- "not found" (KFile.kGet, KFile.Get, HistoryFile.Get). -/
  | notFound
  /-- "cannot overwrite immutable value when history is enabled" (KFile.Put). -/
  | immutable
  /-- Read past EOF of a BFile (bfile.go ReadAt wrapping io.EOF). -/
  | endOfData
  /-- "data source is short" (DBBKey.Unmarshal). -/
  | shortData
  /-- "keyList is the wrong length" (HistoryFile.AddKeys). -/
  | badLength
  /-- "keyList is not sorted" (HistoryFile.AddKeys). -/
  | notSorted
  /-- Underlying os.File operation failed (read past EOF, Stat on a nil handle). -/
  | ioError
  /-- Go runtime panic (slice bounds out of range, makeslice length overflow). -/
  | goPanic
deriving DecidableEq, Repr

/-! ### DBBKey (src/database/keys.go, 48-byte variant) -/

/-- Size of an on-disk key record: 32-byte address plus two uint64s. -/
def DBKeyFullSize : Nat := 48

/-- Value descriptor stored per key: offset and length in the values file
(struct `DBBKey` in keys.go, 48-byte variant). -/
structure DBBKey where
  Offset : Nat
  Length : Nat
deriving DecidableEq, Repr

/-- DBBKey.Bytes: the 48-byte record `address[0:32] || offset_be || length_be`.
Go copies the fixed-size `[32]byte` address; the model takes the first 32
bytes of the list (call sites always pass 32 bytes). -/
def DBBKey.Bytes (d : DBBKey) (address : Bytes) : Bytes :=
  (address ++ List.replicate 32 0).take 32 ++ putUint64 d.Offset ++ putUint64 d.Length

/-- DBBKey.Unmarshal: recover the address and the descriptor from a byte
slice; fails if fewer than 48 bytes are supplied.  (`List Nat` is spelled
out here because `Bytes` would resolve to `DBBKey.Bytes` inside this
namespace.) -/
def DBBKey.Unmarshal (data : List Nat) : Except DBErr (List Nat × DBBKey) :=
  if data.length < DBKeyFullSize then .error .shortData
  else .ok (data.take 32, ⟨beUint64 (data.drop 32), beUint64 (data.drop 40)⟩)

theorem beUint64_putUint64 (v : Nat) (hv : v < U64) : beUint64 (putUint64 v) = v := by
  simp only [beUint64, putUint64, List.getD]
  simp only [List.get?_cons_zero, List.get?_cons_succ, Option.getD_some]
  unfold U64 at hv
  omega

theorem putUint64_length (v : Nat) : (putUint64 v).length = 8 := by
  simp [putUint64]

/-- C8: for every 32-byte address `a` and 64-bit `o`, `l`, `DBBKey.Bytes`
produces exactly the 48-byte record `a || o_be64 || l_be64`, and
`DBBKey.Unmarshal` applied to that record returns `a`, `o` and `l`
unchanged. -/
theorem dbbkey_encode_decode (a : Bytes) (o l : Nat)
    (ha : a.length = 32) (ho : o < U64) (hl : l < U64) :
    DBBKey.Bytes ⟨o, l⟩ a = a ++ putUint64 o ++ putUint64 l ∧
    (DBBKey.Bytes ⟨o, l⟩ a).length = 48 ∧
    DBBKey.Unmarshal (DBBKey.Bytes ⟨o, l⟩ a) = .ok (a, ⟨o, l⟩) := by
  have htake : (a ++ List.replicate 32 0).take 32 = a := by
    rw [List.take_append_eq_append_take, ha]
    simp [← ha]
  have henc : DBBKey.Bytes ⟨o, l⟩ a = a ++ putUint64 o ++ putUint64 l := by
    rw [DBBKey.Bytes, htake]
  have hlen : (DBBKey.Bytes ⟨o, l⟩ a).length = 48 := by
    rw [henc]
    simp [putUint64_length, ha]
  refine ⟨henc, hlen, ?_⟩
  rw [DBBKey.Unmarshal]
  rw [if_neg (by simp [hlen, DBKeyFullSize])]
  have hdrop32 : (DBBKey.Bytes ⟨o, l⟩ a).drop 32 = putUint64 o ++ putUint64 l := by
    rw [henc, List.append_assoc, List.drop_append_eq_append_drop, ha]
    simp [← ha]
  have hdrop40 : (DBBKey.Bytes ⟨o, l⟩ a).drop 40 = putUint64 l := by
    rw [henc, List.append_assoc, List.drop_append_eq_append_drop, ha]
    have h40 : (40 : Nat) - 32 = 8 := rfl
    rw [h40, List.drop_append_eq_append_drop, putUint64_length]
    have hd : a.drop 40 = [] := List.drop_eq_nil_of_le (by omega)
    have hdo : (putUint64 o).drop 8 = [] := List.drop_eq_nil_of_le (by rw [putUint64_length])
    rw [hd, hdo]
    simp
  have htake' : (DBBKey.Bytes ⟨o, l⟩ a).take 32 = a := by
    rw [henc, List.append_assoc, List.take_append_eq_append_take, ha]
    simp [← ha]
  rw [htake', hdrop32, hdrop40]
  have h1 : beUint64 (putUint64 o ++ putUint64 l) = o := by
    have hb : beUint64 (putUint64 o ++ putUint64 l) = beUint64 (putUint64 o) := by
      simp only [beUint64, putUint64, List.getD]
      simp [List.get?_append, putUint64]
    rw [hb, beUint64_putUint64 o ho]
  rw [h1, beUint64_putUint64 l hl]

/-- Closed witness for `dbbkey_encode_decode` at a concrete address. -/
theorem dbbkey_encode_decode_witness :
    (List.replicate 32 1 : Bytes).length = 32 ∧ (3735928559 : Nat) < U64 ∧ (4660 : Nat) < U64 ∧
    (DBBKey.Bytes ⟨3735928559, 4660⟩ (List.replicate 32 1) =
      List.replicate 32 1 ++ putUint64 3735928559 ++ putUint64 4660 ∧
    (DBBKey.Bytes ⟨3735928559, 4660⟩ (List.replicate 32 1)).length = 48 ∧
    DBBKey.Unmarshal (DBBKey.Bytes ⟨3735928559, 4660⟩ (List.replicate 32 1)) =
      .ok (List.replicate 32 1, ⟨3735928559, 4660⟩)) :=
  ⟨by decide, by decide, by decide,
   dbbkey_encode_decode (List.replicate 32 1) 3735928559 4660 (by decide) (by decide) (by decide)⟩

/-! ### Bloom filter (src/database/bloom.go, k-hash variant) -/

/-- Bloom filter state (struct `Bloom`): byte-array bitmap of `NumBytes`
bytes with `K` hash functions.  The bitmap is a total function standing for
the zero-initialised byte slice `Map`. -/
structure Bloom where
  NumBytes : Nat
  Map : Nat -> Nat
  K : Nat

/-- NewBloomFilter: zeroed bitmap of `1024*1024*size` bytes with `k` hash
functions (the float product is passed in already floored to a Nat; every
call site uses a constant size). -/
def NewBloomFilter (numBytes : Nat) (k : Nat) : Bloom :=
  { NumBytes := numBytes, Map := fun _ => 0, K := k }

/-- Bloom.ByteMask: take the 8-byte window at offset `(hashNum*8) % 24` of
the key, reduce it modulo `NumBytes << 8`, and split the result into a byte
index and a single-bit mask `1 << (BitIndex % 8)`. -/
def Bloom.ByteMask (b : Bloom) (key : Bytes) (hashNum : Nat) : Nat × Nat :=
  let offset := hashNum * 8 % 24
  let v := beUint64 (key.drop offset)
  let v2 := v % (b.NumBytes * 256)
  (v2 / 256, 2 ^ (v2 % 256 % 8))

/-- Loop body of Bloom.Set for one hash function: or the mask into the
indexed byte of the bitmap. -/
def Bloom.setStep (key : Bytes) (acc : Bloom) (i : Nat) : Bloom :=
  let im := acc.ByteMask key i
  { acc with Map := fun p => if p = im.1 then acc.Map p ||| im.2 else acc.Map p }

/-- Bloom.Set: set the bit of every hash function `0 ≤ i < K` for the key. -/
def Bloom.Set (b : Bloom) (key : Bytes) : Bloom :=
  (List.range b.K).foldl (Bloom.setStep key) b

/-- Bloom.Test: true iff the bits of all `K` hash functions are set. -/
def Bloom.Test (b : Bloom) (key : Bytes) : Bool :=
  (List.range b.K).all fun i =>
    let im := b.ByteMask key i
    decide (b.Map im.1 &&& im.2 ≠ 0)

/-- Run a finite sequence of Set operations left to right. -/
def Bloom.SetAll (b : Bloom) (keys : List Bytes) : Bloom :=
  keys.foldl Bloom.Set b

theorem or_and_two_pow (x y e : Nat) (h : x &&& 2 ^ e ≠ 0) : (x ||| y) &&& 2 ^ e ≠ 0 := by
  have hx : x.testBit e = true := by
    by_contra hc
    rw [Bool.not_eq_true] at hc
    rw [Nat.and_two_pow, hc] at h
    simp at h
  rw [Nat.and_two_pow, Nat.testBit_or, hx, Bool.true_or]
  simpa using (pow_pos (by norm_num : (0 : Nat) < 2) e).ne

theorem self_or_and_two_pow (x e : Nat) : (x ||| 2 ^ e) &&& 2 ^ e ≠ 0 := by
  rw [Nat.and_two_pow, Nat.testBit_or, Nat.testBit_two_pow_self, Bool.or_true]
  simpa using (pow_pos (by norm_num : (0 : Nat) < 2) e).ne

theorem Bloom.setStep_numBytes (key : Bytes) (b : Bloom) (i : Nat) :
    (Bloom.setStep key b i).NumBytes = b.NumBytes := rfl

theorem Bloom.setStep_K (key : Bytes) (b : Bloom) (i : Nat) :
    (Bloom.setStep key b i).K = b.K := rfl

theorem Bloom.setStep_byteMask (key k2 : Bytes) (b : Bloom) (i j : Nat) :
    (Bloom.setStep key b i).ByteMask k2 j = b.ByteMask k2 j := rfl

theorem Bloom.foldl_setStep_numBytes (key : Bytes) (l : List Nat) (b : Bloom) :
    (l.foldl (Bloom.setStep key) b).NumBytes = b.NumBytes := by
  induction l generalizing b with
  | nil => rfl
  | cons x xs ih => rw [List.foldl_cons, ih]; rfl

theorem Bloom.foldl_setStep_K (key : Bytes) (l : List Nat) (b : Bloom) :
    (l.foldl (Bloom.setStep key) b).K = b.K := by
  induction l generalizing b with
  | nil => rfl
  | cons x xs ih => rw [List.foldl_cons, ih]; rfl

theorem Bloom.setStep_mono (key : Bytes) (b : Bloom) (i idx e : Nat)
    (h : b.Map idx &&& 2 ^ e ≠ 0) : (Bloom.setStep key b i).Map idx &&& 2 ^ e ≠ 0 := by
  show (if idx = (b.ByteMask key i).1 then b.Map idx ||| (b.ByteMask key i).2
        else b.Map idx) &&& 2 ^ e ≠ 0
  by_cases hj : idx = (b.ByteMask key i).1
  · rw [if_pos hj]
    exact or_and_two_pow _ _ _ h
  · rwa [if_neg hj]

theorem Bloom.foldl_setStep_mono (key : Bytes) (l : List Nat) (b : Bloom) (idx e : Nat)
    (h : b.Map idx &&& 2 ^ e ≠ 0) :
    (l.foldl (Bloom.setStep key) b).Map idx &&& 2 ^ e ≠ 0 := by
  induction l generalizing b with
  | nil => exact h
  | cons x xs ih =>
    rw [List.foldl_cons]
    exact ih _ (Bloom.setStep_mono key b x idx e h)

theorem Bloom.set_numBytes (b : Bloom) (k : Bytes) : (b.Set k).NumBytes = b.NumBytes :=
  Bloom.foldl_setStep_numBytes k _ b

theorem Bloom.set_K (b : Bloom) (k : Bytes) : (b.Set k).K = b.K :=
  Bloom.foldl_setStep_K k _ b

theorem Bloom.set_mono (b : Bloom) (k : Bytes) (idx e : Nat)
    (h : b.Map idx &&& 2 ^ e ≠ 0) : (b.Set k).Map idx &&& 2 ^ e ≠ 0 :=
  Bloom.foldl_setStep_mono k _ b idx e h

/-- The mask produced by ByteMask is always a single bit, and ByteMask only
depends on the bitmap size. -/
theorem Bloom.byteMask_eq_of_numBytes (b b2 : Bloom) (k : Bytes) (i : Nat)
    (h : b.NumBytes = b2.NumBytes) : b.ByteMask k i = b2.ByteMask k i := by
  rw [Bloom.ByteMask, Bloom.ByteMask, h]

/-- After `Set`, every one of the key\x27s own K bits is set. -/
theorem Bloom.set_self (b : Bloom) (k : Bytes) (i : Nat) (hi : i < b.K) :
    (b.Set k).Map (b.ByteMask k i).1 &&& (b.ByteMask k i).2 ≠ 0 := by
  rw [Bloom.Set]
  obtain ⟨l1, l2, hsplit⟩ := List.append_of_mem (List.mem_range.mpr hi)
  rw [hsplit, List.foldl_append, List.foldl_cons]
  apply Bloom.foldl_setStep_mono
  set b1 := l1.foldl (Bloom.setStep k) b with hb1
  have hnb : b1.NumBytes = b.NumBytes := Bloom.foldl_setStep_numBytes k l1 b
  have hbm : b1.ByteMask k i = b.ByteMask k i :=
    Bloom.byteMask_eq_of_numBytes b1 b k i hnb
  show (Bloom.setStep k b1 i).Map (b.ByteMask k i).1 &&& (b.ByteMask k i).2 ≠ 0
  rw [Bloom.setStep]
  show (if (b.ByteMask k i).1 = (b1.ByteMask k i).1 then
          b1.Map (b.ByteMask k i).1 ||| (b1.ByteMask k i).2
        else b1.Map (b.ByteMask k i).1) &&& (b.ByteMask k i).2 ≠ 0
  rw [hbm, if_pos rfl]
  rw [Bloom.ByteMask]
  exact self_or_and_two_pow _ _

theorem Bloom.setAll_numBytes (b : Bloom) (keys : List Bytes) :
    (b.SetAll keys).NumBytes = b.NumBytes := by
  rw [Bloom.SetAll]
  induction keys generalizing b with
  | nil => rfl
  | cons x xs ih => rw [List.foldl_cons, ih, Bloom.set_numBytes]

theorem Bloom.setAll_K (b : Bloom) (keys : List Bytes) :
    (b.SetAll keys).K = b.K := by
  rw [Bloom.SetAll]
  induction keys generalizing b with
  | nil => rfl
  | cons x xs ih => rw [List.foldl_cons, ih, Bloom.set_K]

theorem Bloom.setAll_mono (b : Bloom) (keys : List Bytes) (idx e : Nat)
    (h : b.Map idx &&& 2 ^ e ≠ 0) : (b.SetAll keys).Map idx &&& 2 ^ e ≠ 0 := by
  rw [Bloom.SetAll]
  induction keys generalizing b with
  | nil => exact h
  | cons x xs ih =>
    rw [List.foldl_cons]
    exact ih _ (Bloom.set_mono b x idx e h)

/-- C9: on a Bloom filter of positive size, after any finite sequence of Set
operations containing a Set of key `k`, `Test k` returns true: Set only ever
sets bits and never clears them, so no interleaving of other keys can make a
set key test negative. -/
theorem bloom_test_never_false_for_set_key (b : Bloom) (keys : List Bytes) (k : Bytes)
    (hpos : 0 < b.NumBytes) (hk : k ∈ keys) : (b.SetAll keys).Test k = true := by
  obtain ⟨l1, l2, hsplit⟩ := List.append_of_mem hk
  subst hsplit
  rw [Bloom.SetAll, List.foldl_append, List.foldl_cons]
  set b1 := l1.foldl Bloom.Set b with hb1
  have hb1nb : b1.NumBytes = b.NumBytes := Bloom.setAll_numBytes b l1
  have hb1K : b1.K = b.K := Bloom.setAll_K b l1
  set b2 := (b1.Set k).SetAll l2 with hb2
  show b2.Test k = true
  have hb2nb : b2.NumBytes = b1.NumBytes := by
    rw [hb2, Bloom.setAll_numBytes, Bloom.set_numBytes]
  have hb2K : b2.K = b1.K := by
    rw [hb2, Bloom.setAll_K, Bloom.set_K]
  rw [Bloom.Test, List.all_eq_true]
  intro i him
  rw [List.mem_range, hb2K] at him
  have hbm2 : b2.ByteMask k i = b1.ByteMask k i :=
    Bloom.byteMask_eq_of_numBytes b2 b1 k i hb2nb
  simp only [hbm2]
  rw [decide_eq_true_eq]
  have hself : (b1.Set k).Map (b1.ByteMask k i).1 &&& (b1.ByteMask k i).2 ≠ 0 :=
    Bloom.set_self b1 k i him
  have hmask : (b1.ByteMask k i).2 = 2 ^ (beUint64 (k.drop (i * 8 % 24)) % (b1.NumBytes * 256) % 256 % 8) := rfl
  rw [hmask] at hself ⊢
  exact Bloom.setAll_mono (b1.Set k) l2 _ _ hself

/-- Closed witness for `bloom_test_never_false_for_set_key`: a 16-byte
filter with 3 hash functions, three keys set, middle key tests positive. -/
theorem bloom_test_never_false_witness :
    0 < (NewBloomFilter 16 3).NumBytes ∧
    (List.replicate 32 5 : Bytes) ∈
      [List.replicate 32 4, List.replicate 32 5, List.replicate 32 6] ∧
    ((NewBloomFilter 16 3).SetAll
      [List.replicate 32 4, List.replicate 32 5, List.replicate 32 6]).Test
      (List.replicate 32 5) = true :=
  ⟨by decide, by decide,
   bloom_test_never_false_for_set_key (NewBloomFilter 16 3)
     [List.replicate 32 4, List.replicate 32 5, List.replicate 32 6]
     (List.replicate 32 5) (by decide) (by decide)⟩

/-! ### BFile, the buffered append file (src/database/bfile.go) -/

/-- Buffer size for values written to the BFile (bfile.go, 16 KiB variant). -/
def BufferSize : Nat := 1024 * 16

/-- The zero address (var `nilKey [32]byte`), reserved as a skip sentinel. -/
def nilKey : Bytes := List.replicate 32 0

/-- Functional state of a `BFile`.  `disk` is the content of the file at
`Filename`; `buf` is `Buffer[0:EOB]`; `fileOpen` tracks whether `File` is
non-nil; `EOD` is the struct field, which Go lets go stale when the file on
disk is replaced behind its back (KV.Compress renames over it). -/
structure BFile where
  fileOpen : Bool
  disk : List Nat
  buf : List Nat
  EOD : Nat
deriving DecidableEq, Repr

/-- NewBFile: os.Create truncates/creates the file; fresh zeroed struct. -/
def NewBFile : BFile := { fileOpen := true, disk := [], buf := [], EOD := 0 }

/-- BFile.Open: no-op when the handle is held; otherwise reopen and set EOD
to the on-disk size (Seek to end). -/
def BFile.Open (b : BFile) : BFile :=
  if b.fileOpen then b else { b with fileOpen := true, EOD := b.disk.length }

/-- BFile.Flush: open, seek to the end (EOD := file size), append the buffer
to disk, clear the buffer and advance EOD. -/
def BFile.Flush (b : BFile) : BFile :=
  let b1 := b.Open
  { fileOpen := true, disk := b1.disk ++ b1.buf, buf := [],
    EOD := b1.disk.length + b1.buf.length }

/-- BFile.Close: flush, then close the handle (File = nil). -/
def BFile.Close (b : BFile) : BFile :=
  { b.Flush with fileOpen := false }

/-- BFile.Offset: `Stat().Size() + EOB`, the logical size.  Go dereferences
the `File` pointer, panicking when the handle is closed. -/
def BFile.Offset (b : BFile) : Except DBErr Nat :=
  if b.fileOpen then .ok (b.disk.length + b.buf.length) else .error .goPanic

/-- Overwrite `data` into `disk` starting at `offset`; the file is sparsely
zero-extended when the offset lies past the end (os.File.WriteAt). -/
def writeAtList (disk : List Nat) (offset : Nat) (data : List Nat) : List Nat :=
  disk.take offset ++ List.replicate (offset - disk.length) 0 ++ data ++
    disk.drop (offset + data.length)

/-- BFile.WriteAt: unbuffered write at an absolute offset; EOD is refreshed
from Stat afterwards.  The write buffer is NOT flushed first. -/
def BFile.WriteAt (b : BFile) (offset : Nat) (data : List Nat) : BFile :=
  let b1 := b.Open
  { b1 with disk := writeAtList b1.disk offset data,
            EOD := (writeAtList b1.disk offset data).length }

theorem BFile.open_buf_aux (b : BFile) : b.Open.buf = b.buf := by
  rw [BFile.Open]
  by_cases h : b.fileOpen <;> simp [h]

/-- Recursion of BFile.Write, structured on a fuel bound that dominates the
number of buffer flushes (callers pass `data.length + EOB + 1`, which the
recursion can never exhaust, so the fuel-0 arm is unreachable). -/
def BFile.WriteF : Nat → BFile → List Nat → Bool × BFile
  | 0, b, _ => (false, b)
  | fuel + 1, b, data =>
    if data.length ≤ BufferSize - b.buf.length then
      (false, { b with buf := b.buf ++ data })
    else
      let b1 := b.Open
      let disk2 := b1.disk ++ (b1.buf ++ data.take (BufferSize - b1.buf.length))
      let b2 : BFile := { fileOpen := true, disk := disk2, buf := [], EOD := disk2.length }
      if 0 < (data.drop (BufferSize - b1.buf.length)).length then
        (true, (BFile.WriteF fuel b2 (data.drop (BufferSize - b1.buf.length))).2)
      else
        (true, b2)

/-- BFile.Write: buffered append.  Fill the buffer; when it overflows, write
the full buffer to the end of the file and recurse on the remainder.  The
Bool result reports whether the on-disk file was updated.  (`space` uses
Nat subtraction, which agrees with Go uint64 arithmetic because `EOB` never
exceeds `BufferSize`.) -/
def BFile.Write (b : BFile) (data : List Nat) : Bool × BFile :=
  BFile.WriteF (data.length + b.buf.length + 1) b data

/-- Zero-pad a list to length `n` (the caller of a Go `Read` supplies a
zero-initialised `make([]byte, n)` that a short read leaves zeroed). -/
def padTo (n : Nat) (l : List Nat) : List Nat := l ++ List.replicate (n - l.length) 0

/-- One Seek+Read at `offset` for `n` bytes against an already-opened
handle, as performed by the first case of BFile.ReadAt: a nonempty read
starting at or past EOF reports io.EOF; a short read fills what is
available and leaves the rest of the zero-initialised caller buffer 0. -/
def BFile.diskRead (b : BFile) (offset n : Nat) : Except DBErr (List Nat) :=
  if n = 0 then .ok []
  else if b.disk.length ≤ offset then .error .ioError
  else .ok (padTo n ((b.disk.drop offset).take n))

/-- BFile.ReadAt: read `n` logical bytes at `offset`, observing the
unflushed buffer.  The four cases mirror the source switch: whole range at
or below the EOD field (open the handle and read from disk); range past
`EOD + EOB` (end-of-data error); range wholly above EOD (copy from the
buffer); range straddling EOD (the source recurses with the prefix, and
that recursive call always lands in the first case, inlined here as
`diskRead`, then the buffered suffix is copied in).  The updated BFile is
returned alongside, because the handle may have been (re)opened. -/
def BFile.ReadAt (b : BFile) (offset n : Nat) : BFile × Except DBErr (List Nat) :=
  if offset + n ≤ b.EOD then
    (b.Open, b.Open.diskRead offset n)
  else if b.buf.length + b.EOD < offset + n then
    (b, .error .endOfData)
  else if b.EOD < offset then
    (b, .ok (padTo n ((b.buf.drop (offset - b.EOD)).take n)))
  else
    (b.Open, (b.Open.diskRead offset (b.EOD - offset)).map fun pre =>
      pre ++ b.buf.take (n - (b.EOD - offset)))

/-- Well-formed BFile: the EOD field matches the on-disk size and the buffer
respects its capacity.  Every BFile reached without an external rename of
the underlying file satisfies this. -/
def BFile.WF (b : BFile) : Prop := b.EOD = b.disk.length ∧ b.buf.length ≤ BufferSize

instance (b : BFile) : Decidable b.WF := by
  unfold BFile.WF
  infer_instance

/-- Logical content of a BFile: bytes on disk followed by the buffered tail. -/
def BFile.content (b : BFile) : List Nat := b.disk ++ b.buf

theorem BFile.open_disk (b : BFile) : b.Open.disk = b.disk := by
  rw [BFile.Open]
  by_cases h : b.fileOpen <;> simp [h]

theorem BFile.flush_content (b : BFile) : b.Flush.content = b.content ∧ b.Flush.WF := by
  rw [BFile.Flush, BFile.content, BFile.content]
  refine ⟨?_, ?_⟩
  · simp [BFile.open_disk, BFile.open_buf_aux]
  · constructor
    · simp [BFile.open_disk, BFile.open_buf_aux]
    · simp [BufferSize]

theorem BFile.open_content (b : BFile) : b.Open.content = b.content := by
  rw [BFile.content, BFile.content, BFile.open_disk, BFile.open_buf_aux]

theorem BFile.open_wf (b : BFile) (h : b.WF) : b.Open.WF := by
  rw [BFile.Open]
  by_cases hf : b.fileOpen
  · simpa [hf] using h
  · simp only [hf, if_neg]
    exact ⟨rfl, h.2⟩

theorem BFile.write_content_aux (fuel : Nat) :
    ∀ (b : BFile) (data : List Nat), data.length + b.buf.length < fuel →
    b.buf.length ≤ BufferSize →
    ((BFile.WriteF fuel b data).2.content = b.content ++ data ∧
     (BFile.WriteF fuel b data).2.buf.length ≤ BufferSize ∧
     (b.EOD = b.disk.length →
       (BFile.WriteF fuel b data).2.EOD = (BFile.WriteF fuel b data).2.disk.length)) := by
  have hB : BufferSize = 16384 := rfl
  induction fuel with
  | zero =>
    intro b data hle hbuf
    omega
  | succ n ih =>
    intro b data hle hbuf
    by_cases hfit : data.length ≤ BufferSize - b.buf.length
    · rw [BFile.WriteF, if_pos hfit]
      refine ⟨?_, ?_, ?_⟩
      · simp [BFile.content]
      · simpa using (by omega : b.buf.length + data.length ≤ BufferSize)
      · intro h
        simpa using h
    · rw [BFile.WriteF, if_neg hfit]
      simp only [BFile.open_disk, BFile.open_buf_aux]
      set space := BufferSize - b.buf.length with hspace
      set disk2 := b.disk ++ (b.buf ++ data.take space) with hdisk2
      set b2 : BFile :=
        { fileOpen := true, disk := disk2, buf := [], EOD := disk2.length } with hb2
      have hrest : (data.drop space).length = data.length - space := by
        simp
      by_cases hpos : 0 < (data.drop space).length
      · rw [if_pos hpos]
        have hle2 : (data.drop space).length + b2.buf.length < n := by
          have h2 : b2.buf.length = 0 := rfl
          have hf2 : ¬ data.length ≤ BufferSize - b.buf.length := by
            rw [← hspace]
            exact hfit
          rw [hrest, h2, hspace]
          omega
        have hbuf2 : b2.buf.length ≤ BufferSize := by
          show List.length [] ≤ BufferSize
          simp
        obtain ⟨hc, hb, he⟩ := ih b2 (data.drop space) hle2 hbuf2
        refine ⟨?_, hb, fun _ => he rfl⟩
        rw [hc]
        show (b2.disk ++ b2.buf) ++ data.drop space = (b.disk ++ b.buf) ++ data
        rw [hb2]
        simp [hdisk2, List.take_append_drop]
      · rw [if_neg hpos]
        have hdata : data.take space = data := by
          apply List.take_of_length_le
          omega
        refine ⟨?_, by simp, fun _ => rfl⟩
        show (b2.disk ++ b2.buf) = (b.disk ++ b.buf) ++ data
        rw [hb2]
        simp [hdisk2, hdata]

theorem BFile.write_content (b : BFile) (data : List Nat) (h : b.buf.length ≤ BufferSize) :
    ((b.Write data).2.content = b.content ++ data ∧
     (b.Write data).2.buf.length ≤ BufferSize ∧
     (b.EOD = b.disk.length → (b.Write data).2.EOD = (b.Write data).2.disk.length)) :=
  BFile.write_content_aux (data.length + b.buf.length + 1) b data (by omega) h

theorem BFile.write_wf (b : BFile) (data : List Nat) (h : b.WF) :
    (b.Write data).2.WF ∧ (b.Write data).2.content = b.content ++ data :=
  ⟨⟨(BFile.write_content b data h.2).2.2 h.1, (BFile.write_content b data h.2).2.1⟩,
   (BFile.write_content b data h.2).1⟩

theorem BFile.content_length (b : BFile) : b.content.length = b.disk.length + b.buf.length := by
  simp [BFile.content]

theorem BFile.content_drop_left (b : BFile) (offset : Nat) (h : offset ≤ b.disk.length) :
    b.content.drop offset = b.disk.drop offset ++ b.buf := by
  rw [BFile.content, List.drop_append_eq_append_drop]
  have : offset - b.disk.length = 0 := by omega
  rw [this, List.drop_zero]

theorem BFile.content_drop_right (b : BFile) (offset : Nat) (h : b.disk.length ≤ offset) :
    b.content.drop offset = b.buf.drop (offset - b.disk.length) := by
  rw [BFile.content, List.drop_append_eq_append_drop]
  have : b.disk.drop offset = [] := List.drop_eq_nil_of_le h
  rw [this, List.nil_append]

theorem BFile.readAt_state (b : BFile) (offset n : Nat) :
    (b.ReadAt offset n).1 = b ∨ (b.ReadAt offset n).1 = b.Open := by
  rw [BFile.ReadAt]
  by_cases h1 : offset + n ≤ b.EOD
  · rw [if_pos h1]
    right
    rfl
  · rw [if_neg h1]
    by_cases h2 : b.buf.length + b.EOD < offset + n
    · rw [if_pos h2]
      left
      rfl
    · rw [if_neg h2]
      by_cases h3 : b.EOD < offset
      · rw [if_pos h3]
        left
        rfl
      · rw [if_neg h3]
        right
        rfl

theorem BFile.readAt_ok (b : BFile) (offset n : Nat) (hwf : b.WF)
    (hin : offset + n ≤ b.content.length) :
    (b.ReadAt offset n).2 = .ok ((b.content.drop offset).take n) := by
  obtain ⟨heod, hbuf⟩ := hwf
  rw [BFile.ReadAt]
  rw [BFile.content_length] at hin
  by_cases hA : offset + n ≤ b.EOD
  · rw [if_pos hA]
    show b.Open.diskRead offset n = _
    rw [BFile.diskRead]
    by_cases hn : n = 0
    · subst hn
      simp
    · rw [if_neg hn, if_neg (by rw [BFile.open_disk]; omega)]
      have hslice : ((b.Open.disk.drop offset).take n).length = n := by
        rw [BFile.open_disk]
        simp
        omega
      rw [padTo, hslice, Nat.sub_self, List.replicate_zero, List.append_nil]
      rw [BFile.open_disk, BFile.content_drop_left b offset (by omega)]
      rw [List.take_append_eq_append_take]
      have : n - (b.disk.drop offset).length = 0 := by
        simp
        omega
      rw [this, List.take_zero, List.append_nil]
  · rw [if_neg hA, if_neg (by omega)]
    by_cases hC : b.EOD < offset
    · rw [if_pos hC]
      show Except.ok _ = _
      have hslice : ((b.buf.drop (offset - b.EOD)).take n).length = n := by
        simp
        omega
      rw [padTo, hslice, Nat.sub_self, List.replicate_zero, List.append_nil]
      rw [BFile.content_drop_right b offset (by omega), heod]
    · rw [if_neg hC]
      show (b.Open.diskRead offset (b.EOD - offset)).map _ = _
      by_cases hz : b.EOD - offset = 0
      · have hdr : b.Open.diskRead offset (b.EOD - offset) = .ok [] := by
          rw [hz, BFile.diskRead]
          simp
        rw [hdr]
        simp only [Except.map, List.nil_append]
        rw [hz, Nat.sub_zero, BFile.content_drop_right b offset (by omega)]
        have hoff0 : offset - b.disk.length = 0 := by omega
        rw [hoff0, List.drop_zero]
      · have hlt : offset < b.disk.length := by omega
        have hslice : ((b.Open.disk.drop offset).take (b.EOD - offset)).length
            = b.EOD - offset := by
          rw [BFile.open_disk]
          simp
          omega
        have hdr : b.Open.diskRead offset (b.EOD - offset) =
            .ok ((b.Open.disk.drop offset).take (b.EOD - offset)) := by
          rw [BFile.diskRead, if_neg hz, if_neg (by rw [BFile.open_disk]; omega)]
          rw [padTo, hslice, Nat.sub_self, List.replicate_zero, List.append_nil]
        rw [hdr]
        simp only [Except.map]
        rw [BFile.open_disk, BFile.content_drop_left b offset (by omega)]
        rw [List.take_append_eq_append_take]
        have h1 : (b.disk.drop offset).take n = (b.disk.drop offset).take (b.EOD - offset) := by
          rw [heod]
          rw [List.take_of_length_le (by simp; omega), List.take_of_length_le (by simp)]
        have h2 : n - (b.disk.drop offset).length = n - (b.EOD - offset) := by
          simp [heod]
        rw [h1, h2]

theorem BFile.readAt_err (b : BFile) (offset n : Nat) (hwf : b.WF)
    (hout : b.content.length < offset + n) :
    (b.ReadAt offset n).2 = .error .endOfData := by
  obtain ⟨heod, hbuf⟩ := hwf
  rw [BFile.content_length] at hout
  rw [BFile.ReadAt, if_neg (by omega), if_pos (by omega)]

theorem BFile.readAt_content (b : BFile) (offset n : Nat) :
    (b.ReadAt offset n).1.content = b.content ∧ ((b.ReadAt offset n).1.WF ∨ ¬ b.WF) := by
  rcases BFile.readAt_state b offset n with h | h
  · rw [h]
    by_cases hw : b.WF
    · exact ⟨rfl, Or.inl hw⟩
    · exact ⟨rfl, Or.inr hw⟩
  · rw [h]
    by_cases hw : b.WF
    · exact ⟨BFile.open_content b, Or.inl (BFile.open_wf b hw)⟩
    · exact ⟨BFile.open_content b, Or.inr hw⟩

/-- C5: on a well-formed BFile (EOD matching the on-disk size, buffer within
capacity), ReadAt returns exactly the logical bytes `[offset, offset+n)` of
disk-then-buffer content — the most recently written byte at every position,
including bytes still in the unflushed buffer — whenever the range fits
below `EOD + buffered`, and fails with the end-of-data error exactly when
`offset + n` exceeds `EOD + buffered bytes`. -/
theorem bfile_readAt_last_written (b : BFile) (offset n : Nat) (hwf : b.WF) :
    (offset + n ≤ b.content.length →
      (b.ReadAt offset n).2 = .ok ((b.content.drop offset).take n)) ∧
    (b.content.length < offset + n →
      (b.ReadAt offset n).2 = .error .endOfData) :=
  ⟨fun h => BFile.readAt_ok b offset n hwf h, fun h => BFile.readAt_err b offset n hwf h⟩

/-- Closed witness for `bfile_readAt_last_written`: a file with three bytes
on disk and two buffered; a straddling read returns the logical slice and an
over-long read fails. -/
theorem bfile_readAt_last_written_witness :
    (BFile.mk true [1, 2, 3] [4, 5] 3).WF ∧
    ((2 + 2 ≤ (BFile.mk true [1, 2, 3] [4, 5] 3).content.length →
      ((BFile.mk true [1, 2, 3] [4, 5] 3).ReadAt 2 2).2 =
        .ok (((BFile.mk true [1, 2, 3] [4, 5] 3).content.drop 2).take 2)) ∧
    ((BFile.mk true [1, 2, 3] [4, 5] 3).content.length < 2 + 2 →
      ((BFile.mk true [1, 2, 3] [4, 5] 3).ReadAt 2 2).2 = .error .endOfData)) :=
  ⟨by decide, bfile_readAt_last_written (BFile.mk true [1, 2, 3] [4, 5] 3) 2 2 (by decide)⟩

/-! ### Header and bin assignment (src/database/kfile_header.go, part_015) -/

/-- Byte index into a key that selects the KFile/HFile bin (IndexOffsets). -/
def IndexOffsets : Nat := 0

/-- Byte index into a key that selects the KVShard shard (IndexShards). -/
def IndexShards : Nat := 4

/-- Shard count of a KVShard (const NumShards in kv_shard.go). -/
def NumShards : Nat := 256

/-- Offset table at the head of a KFile: bin count, total header size, one
uint64 offset per bin, and the end of the valid key list. -/
structure Header where
  OffsetsCnt : Nat
  HeaderSize : Nat
  Offsets : List Nat
  EndOfList : Nat
deriving DecidableEq, Repr

/-- Header.Init: `HeaderSize = OffsetsCnt*8 + 4 + 4 + 8` (computed in
uint32), every bin offset and the end of list initialised to the header
size.  The stored count is the uint32 truncation of the argument; the
Offsets slice is allocated with the full argument (they agree at every
call site). -/
def Header.Init (offsetsCnt : Nat) : Header :=
  let hs := (offsetsCnt % 2 ^ 32 * 8 + 4 + 4 + 8) % 2 ^ 32
  { OffsetsCnt := offsetsCnt % 2 ^ 32, HeaderSize := hs,
    Offsets := List.replicate offsetsCnt hs, EndOfList := hs }

/-- Header.OffsetIndex: bin of a key, big-endian uint32 of bytes [0,4)
modulo the bin count.  (Go panics when OffsetsCnt = 0; call sites always
have a positive count.) -/
def Header.OffsetIndex (h : Header) (key : List Nat) : Nat :=
  beUint32 (key.drop IndexOffsets) % h.OffsetsCnt

/-- ShardIndex: shard of a key, big-endian uint32 of bytes [4,8) modulo
NumShards. -/
def ShardIndex (key : List Nat) : Nat :=
  beUint32 (key.drop IndexShards) % NumShards

/-- Header.Marshal: count, size, offsets and end-of-list, all big-endian.
Go writes into a `make([]byte, h.HeaderSize)` buffer; for every header the
code builds, `HeaderSize = 16 + 8*len(Offsets)` and the encoding below is
exactly that buffer. -/
def Header.Marshal (h : Header) : List Nat :=
  putUint32 h.OffsetsCnt ++ putUint32 h.HeaderSize ++
    (h.Offsets.map putUint64).flatten ++ putUint64 h.EndOfList

theorem Header.marshal_length (h : Header) :
    h.Marshal.length = 16 + 8 * h.Offsets.length := by
  rw [Header.Marshal]
  simp [putUint32, putUint64]
  induction h.Offsets with
  | nil => simp
  | cons x xs ih =>
    simp [putUint64] at ih ⊢
    omega

/-! ### HistoryFile (src/unnamed/part_024) -/

/-- Size of a marshalled KeySet: two uint64s. -/
def KeySetSize : Nat := 16

/-- Byte region of one bin inside the history file (struct KeySet; the
bookkeeping indices OffsetIndex/KeySetIndex only cache sort positions and
are derived here by sorting, as the source re-derives them in OffsetSort). -/
structure KeySet where
  Start : Nat
  End_ : Nat
deriving DecidableEq, Repr

/-- KeySet.Marshal: Start then End, big-endian uint64s. -/
def KeySet.Marshal (ks : KeySet) : List Nat :=
  putUint64 ks.Start ++ putUint64 ks.End_

/-- Functional state of a HistoryFile: the bin count (int32, bounded by the
constructor), the KeySet table in bin order, and the content of
history.dat.  The offset-ordered view `KeySetOffset` is re-derived by
sorting on every use, exactly what OffsetSort maintains. -/
structure HistoryFile where
  OffsetCnt : Nat
  KeySets : List KeySet
  disk : List Nat
deriving DecidableEq, Repr

/-- HeaderSize of a history file: 4 + KeySetSize*OffsetCnt. -/
def HistoryFile.HeaderSize (hf : HistoryFile) : Nat := 4 + KeySetSize * hf.OffsetCnt

/-- HistoryFile.Marshal: the header (count then every KeySet). -/
def HistoryFile.Marshal (hf : HistoryFile) : List Nat :=
  putUint32 hf.OffsetCnt ++ (hf.KeySets.map KeySet.Marshal).flatten

/-- NewHistoryFile: bins out of range are rejected; otherwise every KeySet
starts empty at the header size and the header is written to a fresh file. -/
def NewHistoryFile (OffsetCnt : Nat) : Except DBErr HistoryFile :=
  if 102400 < OffsetCnt then .error .badLength
  else
    let headerSize := 4 + KeySetSize * OffsetCnt
    let hf : HistoryFile :=
      { OffsetCnt := OffsetCnt,
        KeySets := List.replicate OffsetCnt ⟨headerSize, headerSize⟩,
        disk := [] }
    .ok { hf with disk := writeAtList hf.disk 0 hf.Marshal }

/-- HistoryFile.Index: bin of a key, uint32 of bytes [0,4) modulo the bin
count (Go panics at OffsetCnt = 0; the constructor's bound and call sites
keep it positive). -/
def HistoryFile.Index (hf : HistoryFile) (key : List Nat) : Nat :=
  beUint32 (key.drop IndexOffsets) % hf.OffsetCnt

/-- Insert a KeySet into a list sorted ascending by End (used to model
`OffsetSort`; slices.SortFunc is unstable, but all KeySets that can tie on
End in a reachable HistoryFile are byte-identical empty regions, so any
admissible order gives the same region walk). -/
def insertKS (x : KeySet) : List KeySet → List KeySet
  | [] => [x]
  | y :: ys => if x.End_ ≤ y.End_ then x :: y :: ys else y :: insertKS x ys

/-- The offset-ordered view of the KeySet table: sorted ascending by End. -/
def sortByEnd (l : List KeySet) : List KeySet :=
  l.foldr insertKS []

/-- Exact read of `len` bytes at `start` (os.File.ReadAt): short reads are
errors; zero-length reads always succeed. -/
def readRange (disk : List Nat) (start len : Nat) : Except DBErr (List Nat) :=
  if len = 0 then .ok []
  else if start + len ≤ disk.length then .ok ((disk.drop start).take len)
  else .error .ioError

/-- Free-space walk of UpdateKeySet: follow the offset-ordered KeySets from
`offset`, stopping at the first gap that fits `newLen` (the comparison is
the source's uint64 subtraction `Start - offset`), else land at EOF. -/
def findSlot : List KeySet → Nat → Nat → Nat
  | [], offset, _ => offset
  | ks :: rest, offset, newLen =>
      if newLen ≤ sub64 ks.Start offset then offset
      else findSlot rest ks.End_ newLen

/-- HistoryFile.UpdateKeySet: append `keyList` to bin `index`.  The current
region is read, the combined region is written at the first gap (or EOF)
that fits it, and the KeySet is repositioned there.  (The Go code reads
into the reusable `hf.Buffer`; the buffer is pure scratch space, so it does
not appear in the state.) -/
def HistoryFile.UpdateKeySet (hf : HistoryFile) (index : Nat) (keyList : List Nat) :
    Except DBErr HistoryFile :=
  if keyList.length = 0 then .ok hf
  else
    let keySet := hf.KeySets.getD index ⟨0, 0⟩
    let CurrentLength := sub64 keySet.End_ keySet.Start
    let NewLength := (CurrentLength + keyList.length) % U64
    let offset := findSlot (sortByEnd hf.KeySets) hf.HeaderSize NewLength
    match readRange hf.disk keySet.Start CurrentLength with
    | .error e => .error e
    | .ok buffer =>
      .ok { hf with
        disk := writeAtList hf.disk offset (buffer ++ keyList),
        KeySets := hf.KeySets.set index ⟨offset, (offset + NewLength) % U64⟩ }

/-- Loop of HistoryFile.AddKeys on a fuel bound at least the remaining byte
count: split the pre-binned buffer into runs of equal bin index, pushing
each completed run with UpdateKeySet; records with a smaller bin than the
current run mean the buffer was not sorted. -/
def HistoryFile.addKeysLoopF : Nat → HistoryFile → List Nat → Nat → Nat → Nat → List Nat →
    Except DBErr HistoryFile
  | 0, hf, keyList, index, startOff, endOff, _ =>
    match hf.UpdateKeySet index ((keyList.drop startOff).take (endOff - startOff)) with
    | .error e => .error e
    | .ok hf2 => .ok hf2
  | fuel + 1, hf, keyList, index, startOff, endOff, keyPtr =>
    match keyPtr with
    | [] =>
      match hf.UpdateKeySet index ((keyList.drop startOff).take (endOff - startOff)) with
      | .error e => .error e
      | .ok hf2 => .ok hf2
    | _ :: _ =>
      let kIndex := hf.Index (keyPtr.take 32)
      if kIndex = index then
        HistoryFile.addKeysLoopF fuel hf keyList index startOff (endOff + DBKeyFullSize)
          (keyPtr.drop DBKeyFullSize)
      else if kIndex < index then .error .notSorted
      else
        match hf.UpdateKeySet index ((keyList.drop startOff).take (endOff - startOff)) with
        | .error e => .error e
        | .ok hf2 =>
          HistoryFile.addKeysLoopF fuel hf2 keyList kIndex endOff (endOff + DBKeyFullSize)
            (keyPtr.drop DBKeyFullSize)

/-- Rewrite the header at the front of the file (hf.File.WriteAt(Marshal,0)). -/
def HistoryFile.writeHeader (hf : HistoryFile) : HistoryFile :=
  { hf with disk := writeAtList hf.disk 0 hf.Marshal }

/-- HistoryFile.AddKeys: add a buffer of 48-byte records, pre-sorted
ascending by bin, then persist the header. -/
def HistoryFile.AddKeys (hf : HistoryFile) (keyList : List Nat) : Except DBErr HistoryFile :=
  if keyList.length = 0 then .ok hf
  else if keyList.length % DBKeyFullSize ≠ 0 then .error .badLength
  else
    match HistoryFile.addKeysLoopF keyList.length hf keyList (hf.Index (keyList.take 32)) 0 0 keyList with
    | .error e => .error e
    | .ok hf2 => .ok hf2.writeHeader

/-- Recursion of the record scan, on a fuel bound at least the byte count
(every step consumes 48 bytes, so the fuel-0 arm coincides with the real
behaviour whenever `keys.length ≤ fuel`). -/
def scanKeysF : Nat → List Nat → List Nat → Except DBErr DBBKey
  | 0, _, _ => .error .notFound
  | fuel + 1, keys, Key =>
    if DBKeyFullSize ≤ keys.length then
      if keys.take 32 = Key then
        match DBBKey.Unmarshal keys with
        | .error e => .error e
        | .ok (_, d) => .ok d
      else scanKeysF fuel (keys.drop DBKeyFullSize) Key
    else .error .notFound

/-- Scan a byte region for the first 48-byte record whose first 32 bytes
equal the key; used by both HistoryFile.Get and KFile.kGet. -/
def scanKeys (keys : List Nat) (Key : List Nat) : Except DBErr DBBKey :=
  scanKeysF keys.length keys Key

/-- HistoryFile.Get: read the key\x27s bin region and scan it. -/
def HistoryFile.Get (hf : HistoryFile) (Key : List Nat) : Except DBErr DBBKey :=
  let index := hf.Index Key
  let ks := hf.KeySets.getD index ⟨0, 0⟩
  let keysLen := sub64 ks.End_ ks.Start
  if keysLen = 0 then .error .notFound
  else
    match readRange hf.disk ks.Start keysLen with
    | .error e => .error e
    | .ok keys => scanKeys keys Key

/-! ### KFile, the key index (src/unnamed/part_023) -/

/-- Functional state of a KFile (struct `KFile`).  The embedded Header, the
key BFile, the optional history, the write-through cache (a Go map,
modelled as a function), the rewrite/spill counters and the Bloom filter.
Fields that only name directories, locks, or unused counters are omitted. -/
structure KFile where
  hdr : Header
  File : BFile
  History : Option HistoryFile
  Cache : List Nat → Option DBBKey
  BlocksCached : Int
  KeyCnt : Nat
  TotalCnt : Nat
  KeyLimit : Nat
  MaxCachedBlocks : Int
  BloomFilter : Option Bloom

/-- Size in bytes of the KFile Bloom filter: 10 MB (NewKFile and
KFile.Open both use NewBloomFilter(10.0, 3)). -/
def kfileBloomBytes : Nat := 10 * 1048576

/-- NewKFile: fresh BFile, optional fresh history, initialised header
written to the file, empty cache, 10MB/3-hash Bloom filter.  BlocksCached
starts at zero (Go zero value), so the first buffer flush triggers a
rewrite cycle. -/
def NewKFile (history : Bool) (offsetCnt keyLimit : Nat) (maxCachedBlocks : Int) :
    Except DBErr KFile :=
  match (if history then (NewHistoryFile offsetCnt).map some else .ok none) with
  | .error e => .error e
  | .ok hist =>
    let hdr := Header.Init offsetCnt
    .ok { hdr := hdr,
          File := NewBFile.WriteAt 0 hdr.Marshal,
          History := hist,
          Cache := fun _ => none,
          BlocksCached := 0, KeyCnt := 0, TotalCnt := 0,
          KeyLimit := keyLimit, MaxCachedBlocks := maxCachedBlocks,
          BloomFilter := some (NewBloomFilter kfileBloomBytes 3) }

/-- KFile.WriteHeader: marshal the in-memory header over the front of the
key file. -/
def KFile.WriteHeader (k : KFile) : KFile :=
  { k with File := k.File.WriteAt 0 k.hdr.Marshal }

/-- KFile.Flush: persist the header, flush the BFile buffer, clear the
cache. -/
def KFile.Flush (k : KFile) : KFile :=
  let k1 := k.WriteHeader
  { k1 with File := k1.File.Flush, Cache := fun _ => none }

/-- KFile.kGet: look a key up in the on-disk bin given by the header (the
last bin ends at the BFile EOD field).  The bin slice is read and scanned
linearly.  (Go allocates `make([]byte, end-start)` first and would panic on
the huge uint64-wrapped size of an inconsistent header; the model's ReadAt
reports the failure as an error instead.) -/
def KFile.kGet (k : KFile) (Key : List Nat) : KFile × Except DBErr DBBKey :=
  let index := k.hdr.OffsetIndex Key
  let start := k.hdr.Offsets.getD index 0
  let endO := if index < k.hdr.Offsets.length - 1 then k.hdr.Offsets.getD (index + 1) 0
              else k.File.EOD
  if start = endO then (k, .error .notFound)
  else
    let rd := k.File.ReadAt start (sub64 endO start)
    match rd.2 with
    | .error e => ({ k with File := rd.1 }, .error e)
    | .ok keys => ({ k with File := rd.1 }, scanKeys keys Key)

/-- KFile.Get: cache first, then the Bloom filter (a negative answer means
definitely absent), then the file bin, then (when history is enabled) the
history file. -/
def KFile.Get (k : KFile) (Key : List Nat) : KFile × Except DBErr DBBKey :=
  match k.Cache Key with
  | some value => (k, .ok value)
  | none =>
    let bloomSaysAbsent := match k.BloomFilter with
      | some bf => !(bf.Test Key)
      | none => false
    if bloomSaysAbsent then (k, .error .notFound)
    else
      let r := k.kGet Key
      match r.2 with
      | .ok d => (r.1, .ok d)
      | .error e =>
        match r.1.History with
        | some hf => (r.1, hf.Get Key)
        | none => (r.1, .error e)

/-- Recursion of the record parser, on a fuel bound at least the byte
count (every step consumes 48 bytes). -/
def parseRecordsF : Nat → List Nat → Except DBErr (List (List Nat × DBBKey))
  | 0, _ => .ok []
  | fuel + 1, bytes =>
    if bytes.length = 0 then .ok []
    else
      match DBBKey.Unmarshal bytes with
      | .error e => .error e
      | .ok (addr, d) =>
        match parseRecordsF fuel (bytes.drop DBKeyFullSize) with
        | .error e => .error e
        | .ok rest => .ok ((addr, d) :: rest)

/-- Records parsed 48 bytes at a time, as GetKeyList walks the byte slice;
a trailing fragment shorter than a record is a decode error. -/
def parseRecords (bytes : List Nat) : Except DBErr (List (List Nat × DBBKey)) :=
  parseRecordsF bytes.length bytes

/-- Go map insertion over an association list: a later record for the same
key overwrites the earlier value in place. -/
def mapInsert (acc : List (List Nat × DBBKey)) (p : List Nat × DBBKey) :
    List (List Nat × DBBKey) :=
  if acc.any (fun q => q.1 = p.1) then
    acc.map (fun q => if q.1 = p.1 then (q.1, p.2) else q)
  else acc ++ [p]

/-- Fold the parsed records into a map: last record per key wins. -/
def dedupLast (l : List (List Nat × DBBKey)) : List (List Nat × DBBKey) :=
  l.foldl mapInsert []

/-- Insertion into a list sorted ascending by bin index (models the
`sort.Slice` by bin in GetKeyList; the within-bin order is unspecified in
Go — map iteration plus an unstable sort — and the claims do not depend on
it, so the model fixes this admissible order). -/
def insertByBin (hdr : Header) (x : List Nat × DBBKey) :
    List (List Nat × DBBKey) → List (List Nat × DBBKey)
  | [] => [x]
  | y :: ys =>
    if hdr.OffsetIndex x.1 ≤ hdr.OffsetIndex y.1 then x :: y :: ys
    else y :: insertByBin hdr x ys

/-- Sort records ascending by bin index. -/
def sortByBin (hdr : Header) (l : List (List Nat × DBBKey)) : List (List Nat × DBBKey) :=
  l.foldr (insertByBin hdr) []

/-- KFile.GetKeyList: flush, read every record between the header and EOF
from disk, de-duplicate with last-write-wins, drop the nil key, and sort by
bin.  Returns none when the file holds no records (Go returns nil slices
and its Close treats that as nothing-to-do). -/
def KFile.GetKeyList (k : KFile) :
    KFile × Except DBErr (Option (List (List Nat × DBBKey))) :=
  let k1 := k.Flush
  let keyEntriesBytes := k1.File.disk.drop k1.hdr.HeaderSize
  if keyEntriesBytes.length / DBKeyFullSize = 0 then (k1, .ok none)
  else
    match parseRecords keyEntriesBytes with
    | .error e => (k1, .error e)
    | .ok pairs =>
      let kvs := (dedupLast pairs).filter (fun p => p.1 ≠ nilKey)
      (k1, .ok (some (sortByBin k1.hdr kvs)))

/-- Inner fill of the Close offsets loop: set `Offsets[lo..hi]` (inclusive)
to `cur` — the skipped bins and then the current bin.  Fuel `hi - lo`
matches the loop count exactly. -/
def fillRangeF : Nat → List Nat → Nat → Nat → Nat → List Nat
  | 0, offsets, _, hi, cur => offsets.set hi cur
  | fuel + 1, offsets, lo, hi, cur =>
    if lo < hi then fillRangeF fuel (offsets.set lo cur) (lo + 1) hi cur
    else offsets.set hi cur

/-- Set `Offsets[lo..hi]` (inclusive) to `cur`. -/
def fillRange (offsets : List Nat) (lo hi cur : Nat) : List Nat :=
  fillRangeF (hi - lo) offsets lo hi cur

/-- Trailing fill of the Close offsets loop: set `Offsets[lo..cnt)` to
`cur`.  Fuel `cnt - lo` matches the loop count exactly. -/
def fillTailF : Nat → List Nat → Nat → Nat → Nat → List Nat
  | 0, offsets, _, _, _ => offsets
  | fuel + 1, offsets, lo, cnt, cur =>
    if lo < cnt then fillTailF fuel (offsets.set lo cur) (lo + 1) cnt cur
    else offsets

/-- Set `Offsets[lo..cnt)` to `cur`. -/
def fillTail (offsets : List Nat) (lo cnt cur : Nat) : List Nat :=
  fillTailF (cnt - lo) offsets lo cnt cur

/-- Offsets loop of KFile.Close: walk the bin-sorted keys; whenever the bin
index grows, stamp the current byte offset into every offset slot from the
last one written up to the new bin. -/
def closeOffsetsLoop (hdr : Header) (keys : List (List Nat)) (offsets : List Nat)
    (lastIndex : Int) (currentOffset : Nat) : List Nat × Int × Nat :=
  match keys with
  | [] => (offsets, lastIndex, currentOffset)
  | key :: rest =>
    let index := hdr.OffsetIndex key
    if lastIndex < (index : Int) then
      closeOffsetsLoop hdr rest (fillRange offsets (lastIndex + 1).toNat index currentOffset)
        (index : Int) (currentOffset + DBKeyFullSize)
    else
      closeOffsetsLoop hdr rest offsets lastIndex (currentOffset + DBKeyFullSize)

/-- KFile.Close: collect the surviving records, rebuild the offsets table,
recreate the key file as header followed by the records in bin order, and
close it.  When there are no records at all, Close returns after the
GetKeyList flush without rebuilding. -/
def KFile.Close (k : KFile) : KFile × Option DBErr :=
  match k.GetKeyList with
  | (k1, .error e) => (k1, some e)
  | (k1, .ok none) => (k1, none)
  | (k1, .ok (some pairs)) =>
    let r := closeOffsetsLoop k1.hdr (pairs.map Prod.fst) k1.hdr.Offsets (-1)
      k1.hdr.HeaderSize
    let offsets2 := fillTail r.1 (r.2.1 + 1).toNat k1.hdr.OffsetsCnt r.2.2
    let hdr2 := { k1.hdr with Offsets := offsets2, EndOfList := r.2.2 }
    -- close the handle, os.Remove the file, os.Create it empty
    let f1 : BFile := { k1.File with fileOpen := true, disk := [] }
    let k2 := { k1 with hdr := hdr2, File := f1 }
    let k3 := k2.WriteHeader
    let f2 := pairs.foldl (fun f p => (f.Write (p.2.Bytes p.1)).2) k3.File
    ({ k3 with File := f2.Close }, none)

/-- Set every whole 48-byte record of one chunk into the Bloom filter
(records straddling a chunk boundary are skipped by the source loop);
fueled by the byte count. -/
def setKeysInChunkF : Nat → List Nat → Bloom → Bloom
  | 0, _, bf => bf
  | fuel + 1, chunk, bf =>
    if DBKeyFullSize ≤ chunk.length then
      setKeysInChunkF fuel (chunk.drop DBKeyFullSize) (bf.Set (chunk.take 32))
    else bf

/-- Set every whole 48-byte record of one chunk into the Bloom filter. -/
def setKeysInChunk (chunk : List Nat) (bf : Bloom) : Bloom :=
  setKeysInChunkF chunk.length chunk bf

/-- Chunked walk of one KeySet region for PopulateBloomFilterFromHistory
(1 MB chunks; the final chunk is truncated to the region end); fueled by
the remaining byte count, which every step consumes at least one of. -/
def populateChunksF : Nat → List Nat → Nat → Nat → Nat → Bloom → Except DBErr Bloom
  | 0, _, _, _, _, bf => .ok bf
  | fuel + 1, disk, offset, endPos, bufLen, bf =>
    if offset < endPos then
      let cl := if endPos < offset + bufLen then endPos - offset else bufLen
      if cl = 0 then .ok bf
      else
        match readRange disk offset cl with
        | .error e => .error e
        | .ok chunk =>
          populateChunksF fuel disk (offset + cl) endPos cl (setKeysInChunk chunk bf)
    else .ok bf

/-- Chunked walk of one KeySet region. -/
def populateChunks (disk : List Nat) (offset endPos bufLen : Nat) (bf : Bloom) :
    Except DBErr Bloom :=
  populateChunksF (endPos - offset) disk offset endPos bufLen bf

/-- PopulateBloomFilterFromHistory: every key of every nonempty KeySet is
set into the Bloom filter, reading the regions in 1 MB chunks. -/
def populateBloom (hf : HistoryFile) (bf : Bloom) : Except DBErr Bloom :=
  hf.KeySets.foldl
    (fun acc ks =>
      match acc with
      | .error e => .error e
      | .ok b =>
        let keysLen := sub64 ks.End_ ks.Start
        if keysLen = 0 then .ok b
        else populateChunks hf.disk ks.Start ks.End_ (min 1048576 keysLen) b)
    (.ok bf)

/-- KFile.Open: create the Bloom filter if absent, repopulate it from the
history when history is enabled, then open the underlying BFile. -/
def KFile.Open (k : KFile) : KFile × Option DBErr :=
  let k1 := if k.BloomFilter.isNone
    then { k with BloomFilter := some (NewBloomFilter kfileBloomBytes 3) } else k
  match k1.History, k1.BloomFilter with
  | some hf, some bf =>
    match populateBloom hf bf with
    | .error e => (k1, some e)
    | .ok bf2 => ({ k1 with BloomFilter := some bf2, File := k1.File.Open }, none)
  | _, _ => ({ k1 with File := k1.File.Open }, none)

/-- KFile.PushHistory: with history disabled, rewrite and then recreate the
key file empty — all keys are discarded.  With history enabled, rewrite,
collect every record, recreate the file empty, set each key into the Bloom
filter and hand the bin-sorted records to HistoryFile.AddKeys. -/
def KFile.PushHistory (k : KFile) : KFile × Option DBErr :=
  match k.History with
  | none =>
    match k.Close with
    | (k1, some e) => (k1, some e)
    | (k1, none) =>
      -- os.Remove(kfile.dat); NewBFile; Header.Init; Close(); Open()
      let k2 := { k1 with File := NewBFile }
      let k3 := { k2 with hdr := Header.Init k2.hdr.OffsetsCnt }
      let k4 := (k3.Close).1
      ((k4.Open).1, none)
  | some _ =>
    match k.Close with
    | (k1, some e) => (k1, some e)
    | (k1, none) =>
      match k1.GetKeyList with
      | (k2, .error e) => (k2, some e)
      | (k2, .ok r) =>
        let pairs := r.getD []
        let k3 := { k2 with File := NewBFile }
        let k4 := { k3 with hdr := Header.Init k3.hdr.OffsetsCnt }
        let k5 := (k4.Close).1
        let k6 := (k5.Open).1
        if 0 < pairs.length then
          let newBf := k6.BloomFilter.map
            (fun bf => pairs.foldl (fun (b : Bloom) (p : List Nat × DBBKey) => b.Set p.1) bf)
          let k7 := { k6 with BloomFilter := newBf }
          let buff := (pairs.map (fun (p : List Nat × DBBKey) => p.2.Bytes p.1)).flatten
          match k7.History with
          | some hf =>
            match hf.AddKeys buff with
            | .error e => (k7, some e)
            | .ok hf2 => ({ k7 with History := some hf2 }, none)
          | none => (k7, none)
        else (k6, none)

/-- Shared tail of KFile.Put once the immutability checks pass: insert into
the cache, set the Bloom filter, bump the counters, append the record to
the file; when the append flushed a buffer and the rewrite budget is
exhausted, rewrite the file (Close + reopen — the cache copy that the
source saves and restores around this is already empty, Close cleared it);
when the key budget is exhausted, push to history and drop the cache. -/
def KFile.putWrite (k : KFile) (Key : List Nat) (dbBKey : DBBKey) : KFile × Option DBErr :=
  let k1 := { k with
    Cache := fun x => if x = Key then some dbBKey else k.Cache x,
    BloomFilter := k.BloomFilter.map (fun (bf : Bloom) => bf.Set Key),
    KeyCnt := k.KeyCnt + 1, TotalCnt := k.TotalCnt + 1 }
  let wr := k1.File.Write (dbBKey.Bytes Key)
  let k2 := { k1 with File := wr.2 }
  let step1 : KFile × Option DBErr :=
    if wr.1 then
      if k2.BlocksCached ≤ 0 then
        match k2.Close with
        | (k3, some e) => (k3, some e)
        | (k3, none) =>
          let k4 := { k3 with Cache := fun _ => none }
          let k5 := { k4 with File := k4.File.Open }
          ({ k5 with BlocksCached := k5.MaxCachedBlocks }, none)
      else ({ k2 with BlocksCached := k2.BlocksCached - 1 }, none)
    else (k2, none)
  match step1 with
  | (k6, some e) => (k6, some e)
  | (k6, none) =>
    if k6.KeyLimit < k6.KeyCnt then
      let k7 := { k6 with KeyCnt := 0 }
      match k7.PushHistory with
      | (k8, some e) => (k8, some e)
      | (k8, none) => ({ k8 with Cache := fun _ => none }, none)
    else (k6, none)

/-- KFile.Put: with history enabled, a key already present in the cache or
found in the file with different bytes is an immutability error; equal
bytes are a no-op (the file hit refreshes the cache).  The history itself
is never consulted by this check.  Otherwise fall through to the write. -/
def KFile.Put (k : KFile) (Key : List Nat) (dbBKey : DBBKey) : KFile × Option DBErr :=
  match k.History with
  | some _ =>
    match k.Cache Key with
    | some existingKey =>
      if existingKey.Bytes Key = dbBKey.Bytes Key then (k, none)
      else (k, some .immutable)
    | none =>
      let bloomSaysAbsent := match k.BloomFilter with
        | some bf => !(bf.Test Key)
        | none => false
      if bloomSaysAbsent then k.putWrite Key dbBKey
      else
        let r := k.kGet Key
        match r.2 with
        | .ok existingKey =>
          if existingKey.Bytes Key = dbBKey.Bytes Key then
            ({ r.1 with Cache := fun x => if x = Key then some dbBKey else r.1.Cache x },
             none)
          else (r.1, some .immutable)
        | .error e =>
          if e = .notFound then r.1.putWrite Key dbBKey
          else (r.1, some e)
  | none => k.putWrite Key dbBKey

/-! ### KV, the paired values-and-keys store (src/unnamed/part_027) -/

/-- A KV binds the values BFile to the KFile of the same directory. -/
structure KV where
  vFile : BFile
  kFile : KFile

/-- Fresh KV: a new KFile (with the history flag and limits that KV2
passes through NewKV) plus a fresh values BFile. -/
def NewKV (history : Bool) (offsetsCnt keyLimit : Nat) (maxCachedBlocks : Int) :
    Except DBErr KV :=
  match NewKFile history offsetsCnt keyLimit maxCachedBlocks with
  | .error e => .error e
  | .ok kf => .ok { vFile := NewBFile, kFile := kf }

/-- KV.Put: descriptor at the current logical end of the values file, value
appended first, then the descriptor handed to the KFile. -/
def KV.Put (kv : KV) (key value : List Nat) : KV × Option DBErr :=
  match kv.vFile.Offset with
  | .error e => (kv, some e)
  | .ok off =>
    let dbbKey : DBBKey := { Offset := off, Length := value.length }
    let wr := kv.vFile.Write value
    let r := kv.kFile.Put key dbbKey
    ({ vFile := wr.2, kFile := r.1 }, r.2)

/-- KV.Get: KFile lookup for the descriptor, then read the value bytes. -/
def KV.Get (kv : KV) (key : List Nat) : KV × Except DBErr (List Nat) :=
  let r := kv.kFile.Get key
  match r.2 with
  | .error e => ({ kv with kFile := r.1 }, .error e)
  | .ok dbbKey =>
    let rd := kv.vFile.ReadAt dbbKey.Offset dbbKey.Length
    match rd.2 with
    | .error e => ({ vFile := rd.1, kFile := r.1 }, .error e)
    | .ok value => ({ vFile := rd.1, kFile := r.1 }, .ok value)

/-- KV.Close: close the KFile (its error aborts), then the values file. -/
def KV.Close (kv : KV) : KV × Option DBErr :=
  match kv.kFile.Close with
  | (kf, some e) => ({ kv with kFile := kf }, some e)
  | (kf, none) => ({ kFile := kf, vFile := kv.vFile.Close }, none)

/-- KV.Open: open the KFile (its error aborts), then the values file. -/
def KV.Open (kv : KV) : KV × Option DBErr :=
  match kv.kFile.Open with
  | (kf, some e) => ({ kv with kFile := kf }, some e)
  | (kf, none) => ({ kFile := kf, vFile := kv.vFile.Open }, none)

/-- Rewrite loop of KV.Compress: for each surviving key in bin order, read
its value from the old values file, point its descriptor at the end of the
temp file, re-Put the descriptor into the KFile, append the value to the
temp file.  A value longer than the 10000-byte scratch buffer is a Go
slice-bounds panic. -/
def compressLoop (kv : KV) (tv : BFile) :
    List (List Nat × DBBKey) → KV × BFile × Option DBErr
  | [] => (kv, tv, none)
  | (key, dbbKey) :: rest =>
    if 10000 < dbbKey.Length then (kv, tv, some .goPanic)
    else
      let rd := kv.vFile.ReadAt dbbKey.Offset dbbKey.Length
      match rd.2 with
      | .error e => ({ kv with vFile := rd.1 }, tv, some e)
      | .ok value =>
        let kv1 := { kv with vFile := rd.1 }
        match tv.Offset with
        | .error e => (kv1, tv, some e)
        | .ok newOff =>
          let r := kv1.kFile.Put key { Offset := newOff, Length := dbbKey.Length }
          let kv2 := { kv1 with kFile := r.1 }
          match r.2 with
          | some e => (kv2, tv, some e)
          | none => compressLoop kv2 (tv.Write value).2 rest

/-- KV.Compress: re-open and rewrite the key file, then copy every live
value into a fresh temp file while re-pointing the descriptors, close
everything (the final kFile.Close error is discarded, as in the source) and
rename the temp file over values.dat.  The vFile struct keeps its stale EOD
across the rename, as Go does. -/
def KV.Compress (kv : KV) : KV × Option DBErr :=
  let kv1 := (kv.Open).1
  let kv2 := (kv1.Close).1
  let kv3 := (kv2.Open).1
  let tv := NewBFile
  match kv3.kFile.GetKeyList with
  | (kf, .error e) => ({ kv3 with kFile := kf }, some e)
  | (kf, .ok r) =>
    match compressLoop { kv3 with kFile := kf } tv (r.getD []) with
    | (kv4, _, some e) => (kv4, some e)
    | (kv4, tv2, none) =>
      let kv5 := { kv4 with vFile := kv4.vFile.Close }
      let tv3 := tv2.Close
      let kv6 := { kv5 with kFile := (kv5.kFile.Close).1 }
      ({ kv6 with vFile := { kv6.vFile with disk := tv3.disk } }, none)

/-! ### KV2, the two-tier store (src/unnamed/part_013) -/

/-- KV2: immutable Perm layer over a mutable Dyna layer plus write counts. -/
structure KV2 where
  PermKV : KV
  DynaKV : KV
  DWrites : Int
  PWrites : Int

/-- Fresh KV2: history-enabled Perm, history-disabled Dyna, counters zero. -/
def NewKV2 (offsetsCnt keyLimit : Nat) (maxCachedBlocks : Int) : Except DBErr KV2 :=
  match NewKV true offsetsCnt keyLimit maxCachedBlocks with
  | .error e => .error e
  | .ok perm =>
    match NewKV false offsetsCnt keyLimit maxCachedBlocks with
    | .error e => .error e
    | .ok dyna => .ok { PermKV := perm, DynaKV := dyna, DWrites := 0, PWrites := 0 }

/-- KV2.Open: Perm first (its error aborts), then Dyna. -/
def KV2.Open (k : KV2) : KV2 × Option DBErr :=
  match k.PermKV.Open with
  | (p, some e) => ({ k with PermKV := p }, some e)
  | (p, none) =>
    let rd := k.DynaKV.Open
    ({ k with PermKV := p, DynaKV := rd.1 }, rd.2)

/-- KV2.Close: Perm first (its error aborts), then Dyna. -/
def KV2.Close (k : KV2) : KV2 × Option DBErr :=
  match k.PermKV.Close with
  | (p, some e) => ({ k with PermKV := p }, some e)
  | (p, none) =>
    let rd := k.DynaKV.Close
    ({ k with PermKV := p, DynaKV := rd.1 }, rd.2)

/-- KV2.Get: Dyna first, Perm on a Dyna miss. -/
def KV2.Get (k : KV2) (key : List Nat) : KV2 × Except DBErr (List Nat) :=
  let r := k.DynaKV.Get key
  match r.2 with
  | .ok value => ({ k with DynaKV := r.1 }, .ok value)
  | .error _ =>
    let r2 := { k with DynaKV := r.1 }.PermKV.Get key
    ({ k with DynaKV := r.1, PermKV := r2.1 }, r2.2)

/-- KV2.Put: a key resident in Dyna stays in Dyna (no-op when the value is
unchanged); a key resident in Perm is a no-op on equal value and is
promoted to Dyna on a different value; an unknown key goes to Perm.
Returns the DWrites counter (PWrites for the Perm no-op, as the source
does). -/
def KV2.Put (k : KV2) (key value : List Nat) : KV2 × Int × Option DBErr :=
  let rd := k.DynaKV.Get key
  let k1 := { k with DynaKV := rd.1 }
  match rd.2 with
  | .ok value2 =>
    if value = value2 then (k1, k1.DWrites, none)
    else
      let k2 := { k1 with DWrites := k1.DWrites + 1 }
      let rp := k2.DynaKV.Put key value
      ({ k2 with DynaKV := rp.1 }, k2.DWrites, rp.2)
  | .error _ =>
    let rpg := k1.PermKV.Get key
    let k2 := { k1 with PermKV := rpg.1 }
    match rpg.2 with
    | .ok value2 =>
      if value = value2 then (k2, k2.PWrites, none)
      else
        let k3 := { k2 with DWrites := k2.DWrites + 1 }
        let rp := k3.DynaKV.Put key value
        ({ k3 with DynaKV := rp.1 }, k3.DWrites, rp.2)
    | .error _ =>
      let k3 := { k2 with PWrites := k2.PWrites + 1 }
      let rp := k3.PermKV.Put key value
      ({ k3 with PermKV := rp.1 }, k3.DWrites, rp.2)

/-- KV2.Compress: only the Dyna layer is compressed (its error is
discarded); both write counters reset. -/
def KV2.Compress (k : KV2) : KV2 :=
  { k with DynaKV := (k.DynaKV.Compress).1, DWrites := 0, PWrites := 0 }

/-! ### KVShard, the shard router (src/database/kv_shard.go) -/

/-- KVShard: 256 KV2 shards selected by bytes [4,8) of the key. -/
structure KVShard where
  Shards : Nat → KV2

/-- Fresh KVShard: every shard a fresh KV2 (NewKVShard wipes the directory
and creates all shards; the KFile limits come from the KV2 constructor
parameters). -/
def NewKVShard (offsetsCnt keyLimit : Nat) (maxCachedBlocks : Int) :
    Except DBErr KVShard :=
  match NewKV2 offsetsCnt keyLimit maxCachedBlocks with
  | .error e => .error e
  | .ok shard => .ok { Shards := fun _ => shard }

/-- KVShard.Put: open the shard (result discarded), put, and compress the
shard inline once it reports more than 5000 writes since the last
compress. -/
def KVShard.Put (k : KVShard) (key value : List Nat) : KVShard × Option DBErr :=
  let index := ShardIndex key
  let s1 := ((k.Shards index).Open).1
  match s1.Put key value with
  | (s2, writes, err) =>
    match err with
    | some e => ({ Shards := fun i => if i = index then s2 else k.Shards i }, some e)
    | none =>
      if 5000 < writes then
        ({ Shards := fun i => if i = index then s2.Compress else k.Shards i }, none)
      else
        ({ Shards := fun i => if i = index then s2 else k.Shards i }, none)

/-- KVShard.Get: open the shard (result discarded) and forward. -/
def KVShard.Get (k : KVShard) (key : List Nat) : KVShard × Except DBErr (List Nat) :=
  let index := ShardIndex key
  let s1 := ((k.Shards index).Open).1
  let r := s1.Get key
  ({ Shards := fun i => if i = index then r.1 else k.Shards i }, r.2)

/-- Loop of KVShard.Compress: close each shard in turn, stopping at the
first error. -/
def KVShard.compressShards (k : KVShard) : List Nat → KVShard × Option DBErr
  | [] => (k, none)
  | i :: rest =>
    match (k.Shards i).Close with
    | (s2, some e) => ({ Shards := fun j => if j = i then s2 else k.Shards j }, some e)
    | (s2, none) =>
      KVShard.compressShards { Shards := fun j => if j = i then s2 else k.Shards j } rest

/-- Loop of KVShard.Close: close each shard in turn, stopping at the first
error. -/
def KVShard.closeShards (k : KVShard) : List Nat → KVShard × Option DBErr
  | [] => (k, none)
  | i :: rest =>
    match (k.Shards i).Close with
    | (s2, some e) => ({ Shards := fun j => if j = i then s2 else k.Shards j }, some e)
    | (s2, none) =>
      KVShard.closeShards { Shards := fun j => if j = i then s2 else k.Shards j } rest

/-- KVShard.Compress: the body iterates the shards calling kvs.Close() —
no shard is compressed. -/
def KVShard.Compress (k : KVShard) : KVShard × Option DBErr :=
  k.compressShards (List.range NumShards)

/-- KVShard.Close: close every shard. -/
def KVShard.Close (k : KVShard) : KVShard × Option DBErr :=
  k.closeShards (List.range NumShards)

/-! ### C10: KVShard.Compress is KVShard.Close -/

theorem compressShards_eq_closeShards (l : List Nat) :
    ∀ k : KVShard, k.compressShards l = k.closeShards l := by
  induction l with
  | nil =>
    intro k
    rfl
  | cons i rest ih =>
    intro k
    rw [KVShard.compressShards, KVShard.closeShards]
    cases h : (k.Shards i).Close with
    | mk s2 err =>
      cases err with
      | some e => rfl
      | none => exact ih _

/-- C10: KVShard.Compress and KVShard.Close are extensionally equal — the
Compress body only calls Close on every shard, compressing nothing, so for
every KVShard state both produce exactly the same state and error. -/
theorem kvshard_compress_eq_close (k : KVShard) : k.Compress = k.Close := by
  rw [KVShard.Compress, KVShard.Close]
  exact compressShards_eq_closeShards (List.range NumShards) k

/-! ### C7: KV2.Put routing -/

/-- C7: KV2.Put routes exactly as specified.  When the Dyna lookup
succeeds: equal values write nothing (both stores keep their post-lookup
states), differing values write to Dyna only.  Otherwise, when the Perm
lookup succeeds: equal values write nothing, differing values write to
Dyna (promotion).  Otherwise the pair is written to Perm.  The statement
projects the stores, leaving the write counters aside. -/
theorem kv2_put_routing (k : KV2) (key value : List Nat) :
    ((k.Put key value).1.DynaKV, (k.Put key value).1.PermKV) =
      (match (k.DynaKV.Get key).2 with
       | .ok v2 =>
         if value = v2 then ((k.DynaKV.Get key).1, k.PermKV)
         else ((((k.DynaKV.Get key).1).Put key value).1, k.PermKV)
       | .error _ =>
         match (k.PermKV.Get key).2 with
         | .ok v2 =>
           if value = v2 then ((k.DynaKV.Get key).1, (k.PermKV.Get key).1)
           else ((((k.DynaKV.Get key).1).Put key value).1, (k.PermKV.Get key).1)
         | .error _ =>
           ((k.DynaKV.Get key).1, (((k.PermKV.Get key).1).Put key value).1)) := by
  rw [KV2.Put]
  cases hd : (k.DynaKV.Get key).2 with
  | ok v2 =>
    by_cases hv : value = v2
    · simp [hv]
    · simp [hv]
  | error e =>
    cases hp : (k.PermKV.Get key).2 with
    | ok v2 =>
      by_cases hv : value = v2
      · simp [hp, hv]
      · simp [hp, hv]
    | error e2 => simp [hp]

/-! ### Concrete traces used by the C1, C2 and C4 analyses -/

/-- Concrete 32-byte key in bin 0 (of 2) and shard 1: byte 7 set. -/
def keyA : List Nat := [0, 0, 0, 0, 0, 0, 0, 1] ++ List.replicate 24 0

/-- Concrete 32-byte key in bin 1 (of 2) and shard 1: bytes 3 and 7 set. -/
def keyB : List Nat := [0, 0, 0, 1, 0, 0, 0, 1] ++ List.replicate 24 0

/-- Fallback state for the unreachable error branches of the concrete
constructors. -/
def junkKFile : KFile :=
  { hdr := Header.Init 0, File := NewBFile, History := none,
    Cache := fun _ => none, BlocksCached := 0, KeyCnt := 0, TotalCnt := 0,
    KeyLimit := 0, MaxCachedBlocks := 0, BloomFilter := none }

instance {e a : Type} [DecidableEq e] [DecidableEq a] : DecidableEq (Except e a) :=
  fun x y =>
    match x, y with
    | .ok u, .ok v =>
      match decEq u v with
      | isTrue h => isTrue (h ▸ rfl)
      | isFalse h => isFalse (fun hc => h (Except.ok.inj hc))
    | .error u, .error v =>
      match decEq u v with
      | isTrue h => isTrue (h ▸ rfl)
      | isFalse h => isFalse (fun hc => h (Except.error.inj hc))
    | .ok _, .error _ => isFalse (fun hc => Except.noConfusion hc)
    | .error _, .ok _ => isFalse (fun hc => Except.noConfusion hc)

/-- History-enabled KFile with 2 bins, key limit 1, rewrite budget 10,
after Put(keyA,{0,100}) and Put(keyB,{100,100}); the second Put crosses the
key limit, so both keys are spilled into the history and the cache and key
file are reset: keyA is now present only in the history. -/
def c2state : KFile :=
  match NewKFile true 2 1 10 with
  | .error _ => junkKFile
  | .ok kf => (((kf.Put keyA ⟨0, 100⟩).1).Put keyB ⟨100, 100⟩).1

/-- C2 counterexample: on `c2state` — a reachable history-enabled KFile
whose key `keyA` lives only in the history with descriptor {0,100} — a Put
of the different descriptor {1,100} SUCCEEDS instead of failing with the
Immutable error, and the following Get returns the new descriptor rather
than the original: the immutability check never consults the history. -/
theorem kfile_put_history_overwrite_counterexample :
    c2state.History.isSome = true ∧
    c2state.Cache keyA = none ∧
    (c2state.Get keyA).2 = .ok ⟨0, 100⟩ ∧
    DBBKey.Bytes ⟨1, 100⟩ keyA ≠ DBBKey.Bytes ⟨0, 100⟩ keyA ∧
    (c2state.Put keyA ⟨1, 100⟩).2 = none ∧
    ((c2state.Put keyA ⟨1, 100⟩).1.Get keyA).2 = .ok ⟨1, 100⟩ :=
  ⟨by decide, by decide, by decide, by decide, by decide, by decide⟩

/-- The lookup KFile.Put actually performs before writing: the cache, and
on a cache miss the key file bin (guarded by the Bloom filter) — but never
the history. -/
def KFile.putLookup (k : KFile) (Key : List Nat) : Option DBBKey :=
  match k.Cache Key with
  | some d => some d
  | none =>
    let bloomSaysAbsent := match k.BloomFilter with
      | some bf => !(bf.Test Key)
      | none => false
    if bloomSaysAbsent then none
    else
      match (k.kGet Key).2 with
      | .ok d => some d
      | .error _ => none

theorem BFile.open_of_open (b : BFile) (h : b.fileOpen = true) : b.Open = b := by
  rw [BFile.Open, if_pos h]

theorem BFile.readAt_fst_of_open (b : BFile) (offset n : Nat) (h : b.fileOpen = true) :
    (b.ReadAt offset n).1 = b := by
  rcases BFile.readAt_state b offset n with h2 | h2
  · exact h2
  · rw [h2, BFile.open_of_open b h]

theorem KFile.kGet_fst_of_open (k : KFile) (Key : List Nat)
    (h : k.File.fileOpen = true) : (k.kGet Key).1 = k := by
  simp only [KFile.kGet]
  split
  · split
    · rfl
    · rw [BFile.readAt_fst_of_open _ _ _ h]
      split
      · rfl
      · rfl
  · split
    · rfl
    · rw [BFile.readAt_fst_of_open _ _ _ h]
      split
      · rfl
      · rfl

theorem KFile.put_eq_cache_hit (k : KFile) (Key : List Nat) (d ex : DBBKey)
    (hf : HistoryFile) (hH : k.History = some hf) (hc : k.Cache Key = some ex) :
    k.Put Key d =
      if ex.Bytes Key = d.Bytes Key then (k, none) else (k, some .immutable) := by
  simp only [KFile.Put]
  rw [hH, hc]

theorem KFile.put_eq_file_hit (k : KFile) (Key : List Nat) (d ex : DBBKey)
    (hf : HistoryFile) (hH : k.History = some hf) (hc : k.Cache Key = none)
    (hbs : (match k.BloomFilter with
            | some bf => !(bf.Test Key)
            | none => false) = false)
    (hkg : (k.kGet Key).2 = .ok ex) :
    k.Put Key d =
      if ex.Bytes Key = d.Bytes Key then
        ({ (k.kGet Key).1 with
            Cache := fun x => if x = Key then some d else (k.kGet Key).1.Cache x }, none)
      else ((k.kGet Key).1, some .immutable) := by
  simp only [KFile.Put]
  rw [hH, hc, hbs, hkg]
  rfl

theorem KFile.get_eq_cache_hit (k : KFile) (Key : List Nat) (v : DBBKey)
    (hc : k.Cache Key = some v) : k.Get Key = (k, .ok v) := by
  simp only [KFile.Get]
  rw [hc]

theorem KFile.get_eq_file_hit (k : KFile) (Key : List Nat) (v : DBBKey)
    (hc : k.Cache Key = none)
    (hbs : (match k.BloomFilter with
            | some bf => !(bf.Test Key)
            | none => false) = false)
    (hkg : (k.kGet Key).2 = .ok v) :
    k.Get Key = ((k.kGet Key).1, .ok v) := by
  simp only [KFile.Get]
  rw [hc, hbs, hkg]
  rfl

/-- C2 amended: on a history-enabled KFile with an open handle, when the
check KFile.Put actually performs — cache, then key file — finds an
existing descriptor `d0` for the key, a Put of a descriptor with different
bytes fails with the Immutable error and changes no state, a Put of an
identical descriptor succeeds as a no-op, and a subsequent Get returns the
existing bytes.  (The original claim also protected keys present only in
the history; `kfile_put_history_overwrite_counterexample` shows the code
does not.) -/
theorem kfile_put_immutable_checks (k : KFile) (Key : List Nat) (d d0 : DBBKey)
    (hh : k.History.isSome = true)
    (hopen : k.File.fileOpen = true)
    (hl : k.putLookup Key = some d0) :
    (d0.Bytes Key ≠ d.Bytes Key → k.Put Key d = (k, some .immutable)) ∧
    (d0.Bytes Key = d.Bytes Key → (k.Put Key d).2 = none) ∧
    (∃ dr, ((k.Put Key d).1.Get Key).2 = .ok dr ∧ dr.Bytes Key = d0.Bytes Key) := by
  rcases hH : k.History with _ | hfil
  · rw [hH] at hh
    simp at hh
  rw [KFile.putLookup] at hl
  cases hc : k.Cache Key with
  | some existing =>
    rw [hc] at hl
    have hex : existing = d0 := by
      simpa using hl
    subst hex
    rw [KFile.put_eq_cache_hit k Key d existing hfil hH hc]
    refine ⟨?_, ?_, ?_⟩
    · intro hne
      rw [if_neg hne]
    · intro heq
      rw [if_pos heq]
    · by_cases heq : existing.Bytes Key = d.Bytes Key
      · rw [if_pos heq]
        exact ⟨existing, by rw [KFile.get_eq_cache_hit k Key existing hc], rfl⟩
      · rw [if_neg heq]
        exact ⟨existing, by rw [KFile.get_eq_cache_hit k Key existing hc], rfl⟩
  | none =>
    rw [hc] at hl
    simp only at hl
    cases hbs : (match k.BloomFilter with
      | some bf => !(bf.Test Key)
      | none => false) with
    | true =>
      rw [hbs] at hl
      simp at hl
    | false =>
      rw [hbs] at hl
      simp only [Bool.false_eq_true, if_false] at hl
      cases hkg : (k.kGet Key).2 with
      | error e =>
        rw [hkg] at hl
        simp at hl
      | ok dfound =>
        rw [hkg] at hl
        have hex : dfound = d0 := by
          simpa using hl
        subst hex
        rw [KFile.put_eq_file_hit k Key d dfound hfil hH hc hbs hkg]
        have hfst : (k.kGet Key).1 = k := KFile.kGet_fst_of_open k Key hopen
        refine ⟨?_, ?_, ?_⟩
        · intro hne
          rw [if_neg hne, hfst]
        · intro heq
          rw [if_pos heq]
        · by_cases heq : dfound.Bytes Key = d.Bytes Key
          · rw [if_pos heq]
            refine ⟨d, ?_, heq.symm ▸ rfl⟩
            have hcache2 : ({ (k.kGet Key).1 with
                Cache := fun x => if x = Key then some d else (k.kGet Key).1.Cache x }
                : KFile).Cache Key = some d := by
              simp
            rw [KFile.get_eq_cache_hit _ Key d hcache2]
          · rw [if_neg heq, hfst]
            exact ⟨dfound, by rw [KFile.get_eq_file_hit k Key dfound hc hbs hkg, hfst], rfl⟩

/-- Concrete history-enabled KFile whose cache holds keyA ↦ {0,100}. -/
def c2witnessState : KFile :=
  { hdr := Header.Init 2,
    File := { fileOpen := true, disk := [], buf := [], EOD := 0 },
    History := some { OffsetCnt := 2, KeySets := List.replicate 2 ⟨36, 36⟩,
                      disk := List.replicate 36 0 },
    Cache := fun x => if x = keyA then some ⟨0, 100⟩ else none,
    BlocksCached := 10, KeyCnt := 1, TotalCnt := 1, KeyLimit := 5,
    MaxCachedBlocks := 10, BloomFilter := some (NewBloomFilter 16 3) }

/-- Closed witness for `kfile_put_immutable_checks` at `c2witnessState`. -/
theorem kfile_put_immutable_checks_witness :
    c2witnessState.History.isSome = true ∧
    c2witnessState.File.fileOpen = true ∧
    c2witnessState.putLookup keyA = some ⟨0, 100⟩ ∧
    ((DBBKey.Bytes ⟨0, 100⟩ keyA ≠ DBBKey.Bytes ⟨1, 100⟩ keyA →
        c2witnessState.Put keyA ⟨1, 100⟩ = (c2witnessState, some .immutable)) ∧
     (DBBKey.Bytes ⟨0, 100⟩ keyA = DBBKey.Bytes ⟨1, 100⟩ keyA →
        (c2witnessState.Put keyA ⟨1, 100⟩).2 = none) ∧
     (∃ dr, ((c2witnessState.Put keyA ⟨1, 100⟩).1.Get keyA).2 = .ok dr ∧
        dr.Bytes keyA = DBBKey.Bytes ⟨0, 100⟩ keyA)) :=
  ⟨by decide, by decide, by decide,
   kfile_put_immutable_checks c2witnessState keyA ⟨1, 100⟩ ⟨0, 100⟩
     (by decide) (by decide) (by decide)⟩

/-! ### C1 and C4: the key-limit reset of a history-disabled KFile loses keys -/

/-- Fallback KV for unreachable error branches. -/
def junkKV : KV := { vFile := NewBFile, kFile := junkKFile }

/-- Fallback KV2 for unreachable error branches. -/
def junkKV2 : KV2 := { PermKV := junkKV, DynaKV := junkKV, DWrites := 0, PWrites := 0 }

/-- Fallback KVShard for unreachable error branches. -/
def junkShard : KVShard := { Shards := fun _ => junkKV2 }

/-- Fresh KVShard over 2-bin KFiles with key limit 1 and rewrite budget 10. -/
def c1shard : KVShard :=
  match NewKVShard 2 1 10 with
  | .error _ => junkShard
  | .ok s => s

/-- The shard state after Put(keyA,[10]), Put(keyA,[20]) (promoting keyA to
the Dyna layer), Put(keyB,[30]) and Put(keyB,[40]) (whose promotion crosses
the Dyna KFile key limit, resetting the Dyna key file and dropping keyA's
Dyna entry). -/
def c1afterPuts : KVShard :=
  ((((c1shard.Put keyA [10]).1.Put keyA [20]).1.Put keyB [30]).1.Put keyB [40]).1

/-- C1, failing trace: on a fresh KVShard (2-bin KFiles, Dyna/Perm key
limit 1), the four Puts all succeed; the last Put on keyA wrote [20] and no
later Put touches keyA, yet Get keyA returns the stale Perm value [10]:
Put(keyB,[40]) pushed the history-disabled Dyna KFile over its key limit
and PushHistory reset it, silently discarding keyA\x27s Dyna entry. -/
theorem kvshard_read_your_writes_failing_trace :
    (c1shard.Put keyA [10]).2 = none ∧
    ((c1shard.Put keyA [10]).1.Put keyA [20]).2 = none ∧
    (((c1shard.Put keyA [10]).1.Put keyA [20]).1.Put keyB [30]).2 = none ∧
    ((((c1shard.Put keyA [10]).1.Put keyA [20]).1.Put keyB [30]).1.Put keyB [40]).2 = none ∧
    (c1afterPuts.Get keyA).2 = .ok [10] ∧
    ([10] : List Nat) ≠ [20] :=
  ⟨by decide, by decide, by decide, by decide, by decide, by decide⟩

/-- History-disabled KV (2 bins, key limit 2) holding keyA ↦ [10] and
keyB ↦ [20]; both keys are retrievable. -/
def c4kv : KV :=
  match NewKV false 2 2 10 with
  | .error _ => junkKV
  | .ok kv => ((kv.Put keyA [10]).1.Put keyB [20]).1

/-- C4, failing trace: both keys of `c4kv` are retrievable before Compress;
Compress returns success, but afterwards Get keyA fails — the re-Put of
keyA\x27s descriptor inside the Compress loop crossed the KFile key limit
and the history-disabled PushHistory reset the key file, discarding keyA.
(keyB, re-Put after the reset, survives and still reads back its bytes from
the rewritten values file that replaced values.dat.) -/
theorem kv_compress_loses_keys_failing_trace :
    (c4kv.Get keyA).2 = .ok [10] ∧
    (c4kv.Get keyB).2 = .ok [20] ∧
    (c4kv.Compress).2 = none ∧
    ((c4kv.Compress).1.Get keyA).2 = .error .notFound ∧
    ((c4kv.Compress).1.Get keyB).2 = .ok [20] :=
  ⟨by decide, by decide, by decide, by decide, by decide⟩

/-! ### C6: invariants of the file rebuilt by KFile.Close -/

theorem getD_set (l : List Nat) (lo i cur : Nat) :
    (l.set lo cur).getD i 0 = if i = lo ∧ i < l.length then cur else l.getD i 0 := by
  by_cases h : i = lo
  · subst h
    by_cases hl : i < l.length
    · simp [List.getD_eq_getElem?_getD, List.getElem?_set, hl]
    · have h1 : l[i]? = none := List.getElem?_eq_none (by omega)
      simp [List.getD_eq_getElem?_getD, List.getElem?_set, hl, h1]
  · simp only [List.getD_eq_getElem?_getD, List.getElem?_set,
      if_neg (fun he : lo = i => h he.symm), if_neg (fun hc : i = lo ∧ i < l.length => h hc.1)]

theorem fillRangeF_length (fuel : Nat) :
    ∀ (offsets : List Nat) (lo hi cur : Nat),
    (fillRangeF fuel offsets lo hi cur).length = offsets.length := by
  induction fuel with
  | zero =>
    intro offsets lo hi cur
    simp [fillRangeF]
  | succ n ih =>
    intro offsets lo hi cur
    rw [fillRangeF]
    by_cases h : lo < hi
    · rw [if_pos h, ih]
      simp
    · rw [if_neg h]
      simp

theorem fillRangeF_getD (fuel : Nat) :
    ∀ (offsets : List Nat) (lo hi cur i : Nat), hi - lo ≤ fuel → lo ≤ hi →
    (fillRangeF fuel offsets lo hi cur).getD i 0 =
      if lo ≤ i ∧ i ≤ hi ∧ i < offsets.length then cur else offsets.getD i 0 := by
  induction fuel with
  | zero =>
    intro offsets lo hi cur i hfuel hlohi
    have hlh : lo = hi := by omega
    subst hlh
    rw [fillRangeF, getD_set]
    by_cases hin : i = lo ∧ i < offsets.length
    · rw [if_pos hin, if_pos ⟨by omega, by omega, hin.2⟩]
    · rw [if_neg hin, if_neg (by omega)]
  | succ n ih =>
    intro offsets lo hi cur i hfuel hlohi
    rw [fillRangeF]
    by_cases h : lo < hi
    · rw [if_pos h]
      rw [ih (offsets.set lo cur) (lo + 1) hi cur i (by omega) (by omega)]
      simp only [List.length_set]
      rw [getD_set]
      by_cases hin : lo + 1 ≤ i ∧ i ≤ hi ∧ i < offsets.length
      · rw [if_pos hin, if_pos ⟨by omega, hin.2⟩]
      · rw [if_neg hin]
        by_cases hset : i = lo ∧ i < offsets.length
        · rw [if_pos hset, if_pos ⟨by omega, by omega, hset.2⟩]
        · rw [if_neg hset, if_neg (by omega)]
    · rw [if_neg h]
      have hlh : lo = hi := by omega
      subst hlh
      rw [getD_set]
      by_cases hin : i = lo ∧ i < offsets.length
      · rw [if_pos hin, if_pos ⟨by omega, by omega, hin.2⟩]
      · rw [if_neg hin, if_neg (by omega)]

theorem fillRange_getD (offsets : List Nat) (lo hi cur i : Nat) (hlohi : lo ≤ hi) :
    (fillRange offsets lo hi cur).getD i 0 =
      if lo ≤ i ∧ i ≤ hi ∧ i < offsets.length then cur else offsets.getD i 0 :=
  fillRangeF_getD (hi - lo) offsets lo hi cur i (Nat.le_refl _) hlohi

theorem fillRange_length (offsets : List Nat) (lo hi cur : Nat) :
    (fillRange offsets lo hi cur).length = offsets.length :=
  fillRangeF_length (hi - lo) offsets lo hi cur

theorem fillTailF_length (fuel : Nat) :
    ∀ (offsets : List Nat) (lo cnt cur : Nat),
    (fillTailF fuel offsets lo cnt cur).length = offsets.length := by
  induction fuel with
  | zero =>
    intro offsets lo cnt cur
    rfl
  | succ n ih =>
    intro offsets lo cnt cur
    rw [fillTailF]
    by_cases h : lo < cnt
    · rw [if_pos h, ih]
      simp
    · rw [if_neg h]

theorem fillTailF_getD (fuel : Nat) :
    ∀ (offsets : List Nat) (lo cnt cur i : Nat), cnt - lo ≤ fuel →
    (fillTailF fuel offsets lo cnt cur).getD i 0 =
      if lo ≤ i ∧ i < cnt ∧ i < offsets.length then cur else offsets.getD i 0 := by
  induction fuel with
  | zero =>
    intro offsets lo cnt cur i hfuel
    rw [fillTailF]
    rw [if_neg (by omega)]
  | succ n ih =>
    intro offsets lo cnt cur i hfuel
    rw [fillTailF]
    by_cases h : lo < cnt
    · rw [if_pos h]
      rw [ih (offsets.set lo cur) (lo + 1) cnt cur i (by omega)]
      simp only [List.length_set]
      rw [getD_set]
      by_cases hin : lo + 1 ≤ i ∧ i < cnt ∧ i < offsets.length
      · rw [if_pos hin, if_pos ⟨by omega, hin.2⟩]
      · rw [if_neg hin]
        by_cases hset : i = lo ∧ i < offsets.length
        · rw [if_pos hset, if_pos ⟨by omega, by omega, hset.2⟩]
        · rw [if_neg hset, if_neg (by omega)]
    · rw [if_neg h, if_neg (by omega)]

theorem fillTail_getD (offsets : List Nat) (lo cnt cur i : Nat) :
    (fillTail offsets lo cnt cur).getD i 0 =
      if lo ≤ i ∧ i < cnt ∧ i < offsets.length then cur else offsets.getD i 0 :=
  fillTailF_getD (cnt - lo) offsets lo cnt cur i (Nat.le_refl _)

theorem fillTail_length (offsets : List Nat) (lo cnt cur : Nat) :
    (fillTail offsets lo cnt cur).length = offsets.length :=
  fillTailF_length (cnt - lo) offsets lo cnt cur

/-- Number of keys whose bin index lies below `i`. -/
def countLtBin (hdr : Header) (keys : List (List Nat)) (i : Nat) : Nat :=
  keys.countP (fun key => decide (hdr.OffsetIndex key < i))

theorem countLtBin_cons (hdr : Header) (key : List Nat) (rest : List (List Nat)) (i : Nat) :
    countLtBin hdr (key :: rest) i =
      countLtBin hdr rest i + (if hdr.OffsetIndex key < i then 1 else 0) := by
  simp [countLtBin, List.countP_cons]

theorem countLtBin_eq_zero (hdr : Header) (keys : List (List Nat)) (i : Nat)
    (h : ∀ key ∈ keys, ¬ hdr.OffsetIndex key < i) : countLtBin hdr keys i = 0 := by
  rw [countLtBin, List.countP_eq_zero]
  intro a ha
  simpa using h a ha

theorem countLtBin_le_length (hdr : Header) (keys : List (List Nat)) (i : Nat) :
    countLtBin hdr keys i ≤ keys.length :=
  List.countP_le_length _

theorem countLtBin_mono (hdr : Header) (keys : List (List Nat)) :
    ∀ i j : Nat, i ≤ j → countLtBin hdr keys i ≤ countLtBin hdr keys j := by
  induction keys with
  | nil =>
    intro i j hij
    simp [countLtBin]
  | cons key rest ih =>
    intro i j hij
    rw [countLtBin_cons, countLtBin_cons]
    have h1 := ih i j hij
    have h2 : hdr.OffsetIndex key < i → hdr.OffsetIndex key < j := fun h => lt_of_lt_of_le h hij
    by_cases ha : hdr.OffsetIndex key < i
    · rw [if_pos ha, if_pos (h2 ha)]
      omega
    · rw [if_neg ha]
      by_cases hb : hdr.OffsetIndex key < j
      · rw [if_pos hb]
        omega
      · rw [if_neg hb]
        omega

/-- Full characterisation of the Close offsets loop on a bin-sorted key
list: lengths are preserved, the final byte offset advances by one record
size per key, the final last-written index dominates every bin, every slot
strictly between the incoming last index and the final one holds the byte
offset of the first record of its bin, and slots beyond the final index
are untouched. -/
theorem closeOffsetsLoop_spec (hdr : Header) (keys : List (List Nat)) :
    ∀ (offsets : List Nat) (lastIndex : Int) (cur : Nat),
    keys.Pairwise (fun a b => hdr.OffsetIndex a ≤ hdr.OffsetIndex b) →
    (∀ key ∈ keys, lastIndex ≤ (hdr.OffsetIndex key : Int)) →
    (closeOffsetsLoop hdr keys offsets lastIndex cur).1.length = offsets.length ∧
    (closeOffsetsLoop hdr keys offsets lastIndex cur).2.2 =
      cur + DBKeyFullSize * keys.length ∧
    lastIndex ≤ (closeOffsetsLoop hdr keys offsets lastIndex cur).2.1 ∧
    (∀ key ∈ keys, (hdr.OffsetIndex key : Int) ≤
      (closeOffsetsLoop hdr keys offsets lastIndex cur).2.1) ∧
    (∀ i : Nat, lastIndex < (i : Int) →
      (i : Int) ≤ (closeOffsetsLoop hdr keys offsets lastIndex cur).2.1 →
      i < offsets.length →
      (closeOffsetsLoop hdr keys offsets lastIndex cur).1.getD i 0 =
        cur + DBKeyFullSize * countLtBin hdr keys i) ∧
    (∀ i : Nat, (closeOffsetsLoop hdr keys offsets lastIndex cur).2.1 < (i : Int) →
      (closeOffsetsLoop hdr keys offsets lastIndex cur).1.getD i 0 = offsets.getD i 0 ∧
      countLtBin hdr keys i = keys.length) ∧
    (∀ i : Nat, (i : Int) ≤ lastIndex →
      (closeOffsetsLoop hdr keys offsets lastIndex cur).1.getD i 0 = offsets.getD i 0) := by
  have h48 : DBKeyFullSize = 48 := rfl
  induction keys with
  | nil =>
    intro offsets lastIndex cur hsorted hge
    refine ⟨rfl, by simp [closeOffsetsLoop, h48], le_refl _, by simp, ?_, ?_, ?_⟩
    · intro i h1 h2 h3
      exact absurd (lt_of_lt_of_le h1 h2) (lt_irrefl _)
    · intro i hi
      exact ⟨rfl, by simp [countLtBin]⟩
    · intro i hi
      rfl
  | cons key rest ih =>
    intro offsets lastIndex cur hsorted hge
    have hhead : ∀ z ∈ rest, hdr.OffsetIndex key ≤ hdr.OffsetIndex z :=
      (List.pairwise_cons.mp hsorted).1
    have hrest : rest.Pairwise (fun a b => hdr.OffsetIndex a ≤ hdr.OffsetIndex b) :=
      (List.pairwise_cons.mp hsorted).2
    have hgekey : lastIndex ≤ (hdr.OffsetIndex key : Int) := hge key (List.mem_cons_self _ _)
    have hstep : closeOffsetsLoop hdr (key :: rest) offsets lastIndex cur =
        if lastIndex < ((hdr.OffsetIndex key : Nat) : Int) then
          closeOffsetsLoop hdr rest
            (fillRange offsets (lastIndex + 1).toNat (hdr.OffsetIndex key) cur)
            ((hdr.OffsetIndex key : Nat) : Int) (cur + DBKeyFullSize)
        else closeOffsetsLoop hdr rest offsets lastIndex (cur + DBKeyFullSize) := rfl
    by_cases hlt : lastIndex < ((hdr.OffsetIndex key : Nat) : Int)
    · rw [hstep, if_pos hlt]
      have hlohi : (lastIndex + 1).toNat ≤ hdr.OffsetIndex key := by omega
      obtain ⟨L1, L2, L3, L4, L5, L6, L7⟩ :=
        ih (fillRange offsets (lastIndex + 1).toNat (hdr.OffsetIndex key) cur)
          ((hdr.OffsetIndex key : Nat) : Int) (cur + DBKeyFullSize) hrest
          (fun z hz => by exact_mod_cast hhead z hz)
      refine ⟨?_, ?_, ?_, ?_, ?_, ?_, ?_⟩
      · rw [L1, fillRange_length]
      · rw [L2]
        simp only [List.length_cons, h48]
        omega
      · exact le_trans (le_of_lt hlt) L3
      · intro z hz
        rcases List.mem_cons.mp hz with hzk | hzr
        · subst hzk
          exact L3
        · exact L4 z hzr
      · intro i h1 h2 h3
        by_cases hcase : ((hdr.OffsetIndex key : Nat) : Int) < (i : Int)
        · rw [L5 i hcase h2 (by rw [fillRange_length]; exact h3)]
          rw [countLtBin_cons, if_pos (by exact_mod_cast hcase), h48]
          omega
        · have hile : (i : Int) ≤ ((hdr.OffsetIndex key : Nat) : Int) := by omega
          rw [L7 i hile]
          rw [fillRange_getD offsets _ _ cur i hlohi]
          rw [if_pos ⟨by omega, by exact_mod_cast hile, h3⟩]
          have hz : countLtBin hdr (key :: rest) i = 0 := by
            apply countLtBin_eq_zero
            intro z hz
            rcases List.mem_cons.mp hz with hzk | hzr
            · subst hzk
              omega
            · have := hhead z hzr
              omega
          rw [hz, h48]
          omega
      · intro i hinew
        obtain ⟨e1, e2⟩ := L6 i hinew
        have hbinlt : hdr.OffsetIndex key < i := by
          have := lt_of_le_of_lt L3 hinew
          exact_mod_cast this
        constructor
        · rw [e1, fillRange_getD offsets _ _ cur i hlohi]
          rw [if_neg (by omega)]
        · rw [countLtBin_cons, if_pos hbinlt, e2]
          simp
      · intro i hile
        have h2 : (i : Int) ≤ ((hdr.OffsetIndex key : Nat) : Int) := le_trans hile (le_of_lt hlt)
        rw [L7 i h2]
        rw [fillRange_getD offsets _ _ cur i hlohi]
        rw [if_neg (by omega)]
    · rw [hstep, if_neg hlt]
      have heq : lastIndex = ((hdr.OffsetIndex key : Nat) : Int) := by omega
      obtain ⟨L1, L2, L3, L4, L5, L6, L7⟩ :=
        ih offsets lastIndex (cur + DBKeyFullSize) hrest
          (fun z hz => by
            rw [heq]
            exact_mod_cast hhead z hz)
      refine ⟨L1, ?_, L3, ?_, ?_, ?_, L7⟩
      · rw [L2]
        simp only [List.length_cons, h48]
        omega
      · intro z hz
        rcases List.mem_cons.mp hz with hzk | hzr
        · subst hzk
          rw [← heq]
          exact L3
        · exact L4 z hzr
      · intro i h1 h2 h3
        rw [L5 i h1 h2 h3]
        rw [countLtBin_cons, if_pos (by omega), h48]
        omega
      · intro i hinew
        obtain ⟨e1, e2⟩ := L6 i hinew
        have hbinlt : hdr.OffsetIndex key < i := by
          have h5 := lt_of_le_of_lt L3 hinew
          rw [heq] at h5
          exact_mod_cast h5
        refine ⟨e1, ?_⟩
        rw [countLtBin_cons, if_pos hbinlt, e2]
        simp

theorem mem_insertByBin (hdr : Header) (x : List Nat × DBBKey) :
    ∀ (l : List (List Nat × DBBKey)) (z : List Nat × DBBKey),
    z ∈ insertByBin hdr x l ↔ z = x ∨ z ∈ l := by
  intro l
  induction l with
  | nil =>
    intro z
    simp [insertByBin]
  | cons y ys ih =>
    intro z
    rw [insertByBin]
    by_cases h : hdr.OffsetIndex x.1 ≤ hdr.OffsetIndex y.1
    · rw [if_pos h]
      simp
    · rw [if_neg h]
      simp only [List.mem_cons, ih]
      tauto

theorem pairwise_insertByBin (hdr : Header) (x : List Nat × DBBKey) :
    ∀ (l : List (List Nat × DBBKey)),
    l.Pairwise (fun a b => hdr.OffsetIndex a.1 ≤ hdr.OffsetIndex b.1) →
    (insertByBin hdr x l).Pairwise (fun a b => hdr.OffsetIndex a.1 ≤ hdr.OffsetIndex b.1) := by
  intro l
  induction l with
  | nil =>
    intro _
    simp [insertByBin]
  | cons y ys ih =>
    intro hl
    obtain ⟨hy, hys⟩ := List.pairwise_cons.mp hl
    rw [insertByBin]
    by_cases h : hdr.OffsetIndex x.1 ≤ hdr.OffsetIndex y.1
    · rw [if_pos h]
      refine List.pairwise_cons.mpr ⟨?_, hl⟩
      intro z hz
      rcases List.mem_cons.mp hz with hzy | hzr
      · subst hzy
        exact h
      · exact le_trans h (hy z hzr)
    · rw [if_neg h]
      refine List.pairwise_cons.mpr ⟨?_, ih hys⟩
      intro z hz
      rcases (mem_insertByBin hdr x ys z).mp hz with hzx | hzr
      · subst hzx
        omega
      · exact hy z hzr

theorem pairwise_sortByBin (hdr : Header) (l : List (List Nat × DBBKey)) :
    (sortByBin hdr l).Pairwise (fun a b => hdr.OffsetIndex a.1 ≤ hdr.OffsetIndex b.1) := by
  induction l with
  | nil =>
    simp [sortByBin]
  | cons x xs ih =>
    exact pairwise_insertByBin hdr x _ ih

theorem dbbkey_bytes_length (d : DBBKey) (address : Bytes) :
    (d.Bytes address).length = DBKeyFullSize := by
  rw [DBBKey.Bytes]
  simp [putUint64, DBKeyFullSize]

theorem flatten_record_length (pairs : List (List Nat × DBBKey)) :
    ((pairs.map (fun p => p.2.Bytes p.1)).flatten).length = DBKeyFullSize * pairs.length := by
  induction pairs with
  | nil =>
    simp
  | cons p ps ih =>
    simp only [List.map_cons, List.flatten_cons, List.length_append, ih,
      dbbkey_bytes_length, List.length_cons]
    ring

theorem foldl_write_content (l : List (List Nat × DBBKey)) :
    ∀ f : BFile, f.WF →
    (l.foldl (fun f p => (f.Write (p.2.Bytes p.1)).2) f).WF ∧
    (l.foldl (fun f p => (f.Write (p.2.Bytes p.1)).2) f).content =
      f.content ++ (l.map (fun p => p.2.Bytes p.1)).flatten := by
  induction l with
  | nil =>
    intro f hf
    exact ⟨hf, by simp⟩
  | cons p ps ih =>
    intro f hf
    obtain ⟨hw, hc⟩ := BFile.write_wf f (p.2.Bytes p.1) hf
    obtain ⟨hw2, hc2⟩ := ih (f.Write (p.2.Bytes p.1)).2 hw
    refine ⟨hw2, ?_⟩
    simp only [List.foldl_cons, List.map_cons, List.flatten_cons] at hc2 ⊢
    rw [hc2, hc, List.append_assoc]

theorem BFile.close_state (b : BFile) :
    b.Close.disk = b.content ∧ b.Close.buf = [] ∧ b.Close.fileOpen = false := by
  rw [BFile.Close, BFile.Flush, BFile.content]
  refine ⟨?_, rfl, rfl⟩
  simp [BFile.open_disk, BFile.open_buf_aux]

theorem writeAtList_nil (data : List Nat) : writeAtList [] 0 data = data := by
  simp [writeAtList]

theorem getKeyList_fst (k : KFile) : (k.GetKeyList).1 = k.Flush := by
  rw [KFile.GetKeyList]
  split
  · rfl
  · split <;> rfl

theorem getKeyList_sorted (k : KFile) (pairs : List (List Nat × DBBKey))
    (h : (k.GetKeyList).2 = .ok (some pairs)) :
    pairs.Pairwise (fun a b => k.hdr.OffsetIndex a.1 ≤ k.hdr.OffsetIndex b.1) := by
  rw [KFile.GetKeyList] at h
  split at h
  · simp at h
  · split at h
    · simp at h
    · simp only at h
      have h2 := Option.some.inj (Except.ok.inj h)
      rw [← h2]
      exact pairwise_sortByBin _ _

/-- The rebuild performed by the ok-some branch of KFile.Close, factored
out so its pieces can be reasoned about separately. -/
def closeRebuild (k1 : KFile) (pairs : List (List Nat × DBBKey)) : KFile × Option DBErr :=
  let r := closeOffsetsLoop k1.hdr (pairs.map Prod.fst) k1.hdr.Offsets (-1)
    k1.hdr.HeaderSize
  let offsets2 := fillTail r.1 (r.2.1 + 1).toNat k1.hdr.OffsetsCnt r.2.2
  let hdr2 := { k1.hdr with Offsets := offsets2, EndOfList := r.2.2 }
  let f1 : BFile := { k1.File with fileOpen := true, disk := [] }
  let k2 := { k1 with hdr := hdr2, File := f1 }
  let k3 := k2.WriteHeader
  let f2 := pairs.foldl (fun f p => (f.Write (p.2.Bytes p.1)).2) k3.File
  ({ k3 with File := f2.Close }, none)

theorem kfile_close_eq (k k1 : KFile) (pairs : List (List Nat × DBBKey))
    (h : k.GetKeyList = (k1, .ok (some pairs))) :
    k.Close = closeRebuild k1 pairs := by
  rw [KFile.Close, h, closeRebuild]

/-- After the Close offsets loop and its trailing fill, slot `i` of the
offsets table holds the header size plus one record size per key of a
strictly smaller bin. -/
theorem close_offsets_formula (hdr : Header) (keys : List (List Nat))
    (hsorted : keys.Pairwise (fun a b => hdr.OffsetIndex a ≤ hdr.OffsetIndex b))
    (hcnt : hdr.OffsetsCnt = hdr.Offsets.length) :
    (fillTail (closeOffsetsLoop hdr keys hdr.Offsets (-1) hdr.HeaderSize).1
        (((closeOffsetsLoop hdr keys hdr.Offsets (-1) hdr.HeaderSize).2.1 + 1).toNat)
        hdr.OffsetsCnt
        (closeOffsetsLoop hdr keys hdr.Offsets (-1) hdr.HeaderSize).2.2).length =
      hdr.Offsets.length ∧
    (closeOffsetsLoop hdr keys hdr.Offsets (-1) hdr.HeaderSize).2.2 =
      hdr.HeaderSize + DBKeyFullSize * keys.length ∧
    (∀ i : Nat, i < hdr.OffsetsCnt →
      (fillTail (closeOffsetsLoop hdr keys hdr.Offsets (-1) hdr.HeaderSize).1
          (((closeOffsetsLoop hdr keys hdr.Offsets (-1) hdr.HeaderSize).2.1 + 1).toNat)
          hdr.OffsetsCnt
          (closeOffsetsLoop hdr keys hdr.Offsets (-1) hdr.HeaderSize).2.2).getD i 0 =
        hdr.HeaderSize + DBKeyFullSize * countLtBin hdr keys i) := by
  obtain ⟨L1, L2, L3, L4, L5, L6, L7⟩ :=
    closeOffsetsLoop_spec hdr keys hdr.Offsets (-1) hdr.HeaderSize hsorted
      (fun key _ => by omega)
  refine ⟨by rw [fillTail_length, L1], L2, ?_⟩
  intro i hi
  rw [fillTail_getD]
  by_cases hc : (closeOffsetsLoop hdr keys hdr.Offsets (-1) hdr.HeaderSize).2.1 < (i : Int)
  · rw [if_pos ⟨by omega, hi, by rw [L1]; omega⟩, L2, (L6 i hc).2]
  · rw [if_neg (fun hx => absurd hx.1 (by omega))]
    exact L5 i (by omega) (by omega) (by omega)

/-- In a bin-sorted key list, at most `j` keys have a bin strictly below
the bin of the key at position `j`. -/
theorem countLtBin_le_of_getElem (hdr : Header) (keys : List (List Nat)) (j : Nat)
    (key : List Nat)
    (hsorted : keys.Pairwise (fun a b => hdr.OffsetIndex a ≤ hdr.OffsetIndex b))
    (hj : keys[j]? = some key) :
    countLtBin hdr keys (hdr.OffsetIndex key) ≤ j := by
  obtain ⟨hlt, he⟩ := List.getElem?_eq_some.mp hj
  have hsplit : countLtBin hdr keys (hdr.OffsetIndex key) =
      (keys.take j).countP (fun x => decide (hdr.OffsetIndex x < hdr.OffsetIndex key)) +
      (keys.drop j).countP (fun x => decide (hdr.OffsetIndex x < hdr.OffsetIndex key)) := by
    rw [countLtBin, ← List.countP_append, List.take_append_drop]
  have h1 : (keys.take j).countP
      (fun x => decide (hdr.OffsetIndex x < hdr.OffsetIndex key)) ≤ j :=
    le_trans (List.countP_le_length _) (by rw [List.length_take]; omega)
  have h2 : (keys.drop j).countP
      (fun x => decide (hdr.OffsetIndex x < hdr.OffsetIndex key)) = 0 := by
    apply List.countP_eq_zero.mpr
    intro x hx
    obtain ⟨m, hm, hx2⟩ := List.mem_iff_getElem.mp hx
    have hm2 : j + m < keys.length := by
      rw [List.length_drop] at hm
      omega
    have he2 : x = keys[j + m] := by
      rw [← hx2, List.getElem_drop]
    simp only [decide_eq_true_eq, not_lt]
    by_cases hm0 : m = 0
    · subst hm0
      have hj0 : x = key := by
        rw [he2]
        simp only [Nat.add_zero]
        exact he
      rw [hj0]
    · have hR := List.pairwise_iff_getElem.mp hsorted j (j + m) hlt hm2 (by omega)
      rw [he] at hR
      rw [he2]
      exact hR
  omega

/-- In a bin-sorted key list, at least `j + 1` keys have a bin at most the
bin of the key at position `j`. -/
theorem countLtBin_ge_of_getElem (hdr : Header) (keys : List (List Nat)) (j : Nat)
    (key : List Nat)
    (hsorted : keys.Pairwise (fun a b => hdr.OffsetIndex a ≤ hdr.OffsetIndex b))
    (hj : keys[j]? = some key) :
    j + 1 ≤ countLtBin hdr keys (hdr.OffsetIndex key + 1) := by
  obtain ⟨hlt, he⟩ := List.getElem?_eq_some.mp hj
  have hsplit : countLtBin hdr keys (hdr.OffsetIndex key + 1) =
      (keys.take (j + 1)).countP
        (fun x => decide (hdr.OffsetIndex x < hdr.OffsetIndex key + 1)) +
      (keys.drop (j + 1)).countP
        (fun x => decide (hdr.OffsetIndex x < hdr.OffsetIndex key + 1)) := by
    rw [countLtBin, ← List.countP_append, List.take_append_drop]
  have h1 : (keys.take (j + 1)).countP
      (fun x => decide (hdr.OffsetIndex x < hdr.OffsetIndex key + 1)) =
      (keys.take (j + 1)).length := by
    apply List.countP_eq_length.mpr
    intro x hx
    obtain ⟨m, hm, hx2⟩ := List.mem_iff_getElem.mp hx
    have hmj : m ≤ j ∧ m < keys.length := by
      rw [List.length_take] at hm
      omega
    have hmlen : m < keys.length := hmj.2
    have he2 : x = keys[m] := by
      rw [← hx2, List.getElem_take]
    simp only [decide_eq_true_eq]
    by_cases hmj0 : m = j
    · subst hmj0
      have hj0 : x = key := by
        rw [he2]
        exact he
      rw [hj0]
      omega
    · have hR := List.pairwise_iff_getElem.mp hsorted m j hmj.2 hlt (by omega)
      rw [he] at hR
      rw [he2]
      omega
  have hlen : (keys.take (j + 1)).length = j + 1 := by
    rw [List.length_take]
    omega
  omega

/-- Result of the Close offsets loop on the sorted key list of a rebuild. -/
def closeLoopResult (k1 : KFile) (pairs : List (List Nat × DBBKey)) :
    List Nat × Int × Nat :=
  closeOffsetsLoop k1.hdr (pairs.map Prod.fst) k1.hdr.Offsets (-1) k1.hdr.HeaderSize

/-- Offsets table of the rebuilt header. -/
def closeOffsetsFinal (k1 : KFile) (pairs : List (List Nat × DBBKey)) : List Nat :=
  fillTail (closeLoopResult k1 pairs).1 ((closeLoopResult k1 pairs).2.1 + 1).toNat
    k1.hdr.OffsetsCnt (closeLoopResult k1 pairs).2.2

theorem closeRebuild_snd (k1 : KFile) (pairs : List (List Nat × DBBKey)) :
    (closeRebuild k1 pairs).2 = none := rfl

theorem closeRebuild_hdr_offsets (k1 : KFile) (pairs : List (List Nat × DBBKey)) :
    (closeRebuild k1 pairs).1.hdr.Offsets = closeOffsetsFinal k1 pairs := rfl

theorem closeRebuild_hdr_eol (k1 : KFile) (pairs : List (List Nat × DBBKey)) :
    (closeRebuild k1 pairs).1.hdr.EndOfList = (closeLoopResult k1 pairs).2.2 := rfl

theorem closeRebuild_hdr_cnt (k1 : KFile) (pairs : List (List Nat × DBBKey)) :
    (closeRebuild k1 pairs).1.hdr.OffsetsCnt = k1.hdr.OffsetsCnt := rfl

theorem closeRebuild_hdr_hs (k1 : KFile) (pairs : List (List Nat × DBBKey)) :
    (closeRebuild k1 pairs).1.hdr.HeaderSize = k1.hdr.HeaderSize := rfl

theorem closeRebuild_offsetIndex (k1 : KFile) (pairs : List (List Nat × DBBKey))
    (key : List Nat) :
    (closeRebuild k1 pairs).1.hdr.OffsetIndex key = k1.hdr.OffsetIndex key := rfl

theorem closeRebuild_file (k1 : KFile) (pairs : List (List Nat × DBBKey))
    (hbuf : k1.File.buf = []) :
    (closeRebuild k1 pairs).1.File.disk =
      (closeRebuild k1 pairs).1.hdr.Marshal ++
        (pairs.map (fun p => p.2.Bytes p.1)).flatten ∧
    (closeRebuild k1 pairs).1.File.buf = [] := by
  set f0 : BFile :=
    { fileOpen := true,
      disk := writeAtList [] 0 (closeRebuild k1 pairs).1.hdr.Marshal,
      buf := k1.File.buf,
      EOD := (writeAtList [] 0 (closeRebuild k1 pairs).1.hdr.Marshal).length } with hf0
  have hfile : (closeRebuild k1 pairs).1.File =
      (pairs.foldl (fun f p => (f.Write (p.2.Bytes p.1)).2) f0).Close := rfl
  have hwf : f0.WF := by
    refine ⟨rfl, ?_⟩
    show k1.File.buf.length ≤ BufferSize
    rw [hbuf]
    simp [BufferSize]
  obtain ⟨hwf2, hcontent⟩ := foldl_write_content pairs f0 hwf
  obtain ⟨hd, hb, _⟩ := BFile.close_state
    (pairs.foldl (fun f p => (f.Write (p.2.Bytes p.1)).2) f0)
  refine ⟨?_, ?_⟩
  · rw [hfile, hd, hcontent]
    show (writeAtList [] 0 (closeRebuild k1 pairs).1.hdr.Marshal ++ k1.File.buf) ++ _ = _
    rw [hbuf, writeAtList_nil, List.append_nil]
  · rw [hfile, hb]

/-- Invariants of the rebuilt KFile state: the file is exactly header plus
records, offsets are monotone, the end of list fits in the file, and every
record lies inside the range of its bin. -/
theorem closeRebuild_invariants (k1 : KFile) (pairs : List (List Nat × DBBKey))
    (hsorted : pairs.Pairwise (fun a b => k1.hdr.OffsetIndex a.1 ≤ k1.hdr.OffsetIndex b.1))
    (hbuf : k1.File.buf = [])
    (hpos : 0 < k1.hdr.OffsetsCnt)
    (hcnt : k1.hdr.OffsetsCnt = k1.hdr.Offsets.length)
    (hhs : k1.hdr.HeaderSize = 16 + 8 * k1.hdr.Offsets.length) :
    (closeRebuild k1 pairs).2 = none ∧
    (closeRebuild k1 pairs).1.File.disk =
      (closeRebuild k1 pairs).1.hdr.Marshal ++
        (pairs.map (fun p => p.2.Bytes p.1)).flatten ∧
    (closeRebuild k1 pairs).1.File.buf = [] ∧
    (∀ i : Nat, i + 1 < (closeRebuild k1 pairs).1.hdr.Offsets.length →
      (closeRebuild k1 pairs).1.hdr.Offsets.getD i 0 ≤
        (closeRebuild k1 pairs).1.hdr.Offsets.getD (i + 1) 0) ∧
    (closeRebuild k1 pairs).1.hdr.EndOfList ≤
      (closeRebuild k1 pairs).1.File.disk.length ∧
    (∀ (j : Nat) (p : List Nat × DBBKey), pairs[j]? = some p →
      (closeRebuild k1 pairs).1.hdr.Offsets.getD
          ((closeRebuild k1 pairs).1.hdr.OffsetIndex p.1) 0 ≤
        (closeRebuild k1 pairs).1.hdr.HeaderSize + DBKeyFullSize * j ∧
      (closeRebuild k1 pairs).1.hdr.HeaderSize + DBKeyFullSize * (j + 1) ≤
        (if (closeRebuild k1 pairs).1.hdr.OffsetIndex p.1 + 1 <
            (closeRebuild k1 pairs).1.hdr.OffsetsCnt
         then (closeRebuild k1 pairs).1.hdr.Offsets.getD
            ((closeRebuild k1 pairs).1.hdr.OffsetIndex p.1 + 1) 0
         else (closeRebuild k1 pairs).1.hdr.EndOfList)) := by
  have h48 : DBKeyFullSize = 48 := rfl
  have hsortedk : (pairs.map Prod.fst).Pairwise
      (fun a b => k1.hdr.OffsetIndex a ≤ k1.hdr.OffsetIndex b) :=
    List.pairwise_map.mpr hsorted
  obtain ⟨F1, F2, F3⟩ := close_offsets_formula k1.hdr (pairs.map Prod.fst) hsortedk hcnt
  have hLR : closeOffsetsLoop k1.hdr (pairs.map Prod.fst) k1.hdr.Offsets (-1)
      k1.hdr.HeaderSize = closeLoopResult k1 pairs := rfl
  rw [hLR] at F1 F2 F3
  have hOF : fillTail (closeLoopResult k1 pairs).1
      ((closeLoopResult k1 pairs).2.1 + 1).toNat k1.hdr.OffsetsCnt
      (closeLoopResult k1 pairs).2.2 = closeOffsetsFinal k1 pairs := rfl
  rw [hOF] at F1 F3
  obtain ⟨hdisk, hbuf2⟩ := closeRebuild_file k1 pairs hbuf
  refine ⟨closeRebuild_snd k1 pairs, hdisk, hbuf2, ?_, ?_, ?_⟩
  · intro i hi1
    rw [closeRebuild_hdr_offsets] at hi1 ⊢
    rw [F1] at hi1
    have hii : i < k1.hdr.OffsetsCnt := by omega
    have hii2 : i + 1 < k1.hdr.OffsetsCnt := by omega
    rw [F3 i hii, F3 (i + 1) hii2, h48]
    have hm := countLtBin_mono k1.hdr (pairs.map Prod.fst) i (i + 1) (by omega)
    omega
  · rw [closeRebuild_hdr_eol, hdisk, F2]
    rw [List.length_append, Header.marshal_length, flatten_record_length]
    rw [closeRebuild_hdr_offsets, F1]
    simp only [h48, List.length_map]
    omega
  · intro j p hjp
    have hkj : (pairs.map Prod.fst)[j]? = some p.1 := by
      rw [List.getElem?_map, hjp]
      rfl
    obtain ⟨hjlen, _⟩ := List.getElem?_eq_some.mp hjp
    have hble := countLtBin_le_of_getElem k1.hdr (pairs.map Prod.fst) j p.1 hsortedk hkj
    have hbge := countLtBin_ge_of_getElem k1.hdr (pairs.map Prod.fst) j p.1 hsortedk hkj
    have hbin : k1.hdr.OffsetIndex p.1 < k1.hdr.OffsetsCnt := by
      rw [Header.OffsetIndex]
      exact Nat.mod_lt _ hpos
    constructor
    · rw [closeRebuild_offsetIndex, closeRebuild_hdr_offsets, closeRebuild_hdr_hs]
      rw [F3 _ hbin, h48]
      omega
    · rw [closeRebuild_offsetIndex, closeRebuild_hdr_cnt, closeRebuild_hdr_hs,
        closeRebuild_hdr_offsets, closeRebuild_hdr_eol]
      by_cases hb1 : k1.hdr.OffsetIndex p.1 + 1 < k1.hdr.OffsetsCnt
      · rw [if_pos hb1, F3 _ hb1, h48]
        omega
      · rw [if_neg hb1, F2]
        simp only [h48, List.length_map]
        omega

/-- C6: for every KFile whose header is well formed (positive bin count,
one offset slot per bin, header size matching the marshalled header) and
whose Close takes the rebuild path (GetKeyList yields a key list), Close
succeeds and the rebuilt key file is exactly the marshalled header followed
by the surviving records in bin order; every record lies inside the byte
range of the bin computed from its key ([Offsets[bin], Offsets[bin+1]) or
[Offsets[bin], EndOfList) for the last bin), Offsets[i] ≤ Offsets[i+1] for
every i, and EndOfList is at most the file size. -/
theorem kfile_close_invariants (k : KFile) (pairs : List (List Nat × DBBKey))
    (hGK : (k.GetKeyList).2 = .ok (some pairs))
    (hpos : 0 < k.hdr.OffsetsCnt)
    (hcnt : k.hdr.OffsetsCnt = k.hdr.Offsets.length)
    (hhs : k.hdr.HeaderSize = 16 + 8 * k.hdr.Offsets.length) :
    (k.Close).2 = none ∧
    (k.Close).1.File.disk =
      (k.Close).1.hdr.Marshal ++ (pairs.map (fun p => p.2.Bytes p.1)).flatten ∧
    (k.Close).1.File.buf = [] ∧
    (∀ i : Nat, i + 1 < (k.Close).1.hdr.Offsets.length →
      (k.Close).1.hdr.Offsets.getD i 0 ≤ (k.Close).1.hdr.Offsets.getD (i + 1) 0) ∧
    (k.Close).1.hdr.EndOfList ≤ (k.Close).1.File.disk.length ∧
    (∀ (j : Nat) (p : List Nat × DBBKey), pairs[j]? = some p →
      (k.Close).1.hdr.Offsets.getD ((k.Close).1.hdr.OffsetIndex p.1) 0 ≤
        (k.Close).1.hdr.HeaderSize + DBKeyFullSize * j ∧
      (k.Close).1.hdr.HeaderSize + DBKeyFullSize * (j + 1) ≤
        (if (k.Close).1.hdr.OffsetIndex p.1 + 1 < (k.Close).1.hdr.OffsetsCnt
         then (k.Close).1.hdr.Offsets.getD ((k.Close).1.hdr.OffsetIndex p.1 + 1) 0
         else (k.Close).1.hdr.EndOfList)) := by
  have hpair : k.GetKeyList = ((k.GetKeyList).1, .ok (some pairs)) := by
    rw [← hGK]
  have hclose := kfile_close_eq k ((k.GetKeyList).1) pairs hpair
  have hhdr : (k.GetKeyList).1.hdr = k.hdr := by
    rw [getKeyList_fst]
    rfl
  have hbuf : (k.GetKeyList).1.File.buf = [] := by
    rw [getKeyList_fst]
    rfl
  have hsorted0 := getKeyList_sorted k pairs hGK
  rw [hclose]
  exact closeRebuild_invariants ((k.GetKeyList).1) pairs
    (by rw [hhdr]; exact hsorted0) hbuf (by rw [hhdr]; exact hpos)
    (by rw [hhdr]; exact hcnt) (by rw [hhdr]; exact hhs)

/-- Key file with 2 bins holding records for keyA (bin 0) and keyB (bin 1),
history disabled, key limit high enough that no spill occurs. -/
def c6kfile : KFile :=
  match NewKFile false 2 10 10 with
  | .error _ => junkKFile
  | .ok kf => ((kf.Put keyA ⟨0, 10⟩).1.Put keyB ⟨10, 20⟩).1

/-- The key list GetKeyList reports for c6kfile. -/
def c6pairs : List (List Nat × DBBKey) :=
  match (c6kfile.GetKeyList).2 with
  | .ok (some ps) => ps
  | _ => []

theorem kfile_close_invariants_witness :
    ((c6kfile.GetKeyList).2 = .ok (some c6pairs) ∧
     0 < c6kfile.hdr.OffsetsCnt ∧
     c6kfile.hdr.OffsetsCnt = c6kfile.hdr.Offsets.length ∧
     c6kfile.hdr.HeaderSize = 16 + 8 * c6kfile.hdr.Offsets.length) ∧
    (c6kfile.Close).2 = none ∧
    (∀ i : Nat, i + 1 < (c6kfile.Close).1.hdr.Offsets.length →
      (c6kfile.Close).1.hdr.Offsets.getD i 0 ≤
        (c6kfile.Close).1.hdr.Offsets.getD (i + 1) 0) ∧
    (c6kfile.Close).1.hdr.EndOfList ≤ (c6kfile.Close).1.File.disk.length := by
  have h := kfile_close_invariants c6kfile c6pairs (by decide) (by decide)
    (by decide) (by decide)
  exact ⟨⟨by decide, by decide, by decide, by decide⟩, h.1, h.2.2.2.1, h.2.2.2.2.1⟩

/-! ### C3: HistoryFile.AddKeys preserves keys and region disjointness -/

theorem sub64_of_le (a b : Nat) (h : b ≤ a) (ha : a < U64) : sub64 a b = a - b := by
  rw [sub64]
  have hb : b % U64 = b := Nat.mod_eq_of_lt (by omega)
  rw [hb]
  have h1 : a + U64 - b = (a - b) + U64 := by omega
  rw [h1, Nat.add_mod_right]
  exact Nat.mod_eq_of_lt (by omega)

theorem writeAtList_length (disk : List Nat) (offset : Nat) (data : List Nat) :
    (writeAtList disk offset data).length = max disk.length (offset + data.length) := by
  simp [writeAtList]
  omega

theorem writeAtList_getElem_outside (disk : List Nat) (offset : Nat) (data : List Nat)
    (i : Nat) (hi : i < disk.length) (h : i < offset ∨ offset + data.length ≤ i) :
    (writeAtList disk offset data)[i]? = disk[i]? := by
  rw [writeAtList]
  rcases h with h1 | h2
  · have hc1 : i < ((disk.take offset ++ List.replicate (offset - disk.length) 0) ++
        data).length := by
      simp only [List.length_append, List.length_take, List.length_replicate]
      omega
    rw [List.getElem?_append, if_pos hc1]
    have hc2 : i < (disk.take offset ++ List.replicate (offset - disk.length) 0).length := by
      simp only [List.length_append, List.length_take, List.length_replicate]
      omega
    rw [List.getElem?_append, if_pos hc2]
    have hc3 : i < (disk.take offset).length := by
      rw [List.length_take]
      omega
    rw [List.getElem?_append, if_pos hc3]
    rw [List.getElem?_take, if_pos h1]
  · have hoff : offset ≤ disk.length := by omega
    have hpad : offset - disk.length = 0 := by omega
    rw [hpad]
    simp only [List.replicate_zero, List.append_nil]
    have hlen : (disk.take offset ++ data).length = offset + data.length := by
      simp only [List.length_append, List.length_take]
      omega
    rw [List.getElem?_append, if_neg (by omega), hlen]
    rw [List.getElem?_drop]
    congr 1
    omega

theorem writeAtList_read_back (disk : List Nat) (offset : Nat) (data : List Nat)
    (h : offset ≤ disk.length) :
    ((writeAtList disk offset data).drop offset).take data.length = data := by
  rw [writeAtList]
  have hpad : offset - disk.length = 0 := by omega
  rw [hpad]
  simp only [List.replicate_zero, List.append_nil]
  have hlt : (disk.take offset).length = offset := by
    rw [List.length_take]
    omega
  rw [List.append_assoc]
  nth_rewrite 1 [← hlt]
  rw [List.drop_left, List.take_left]

theorem readRange_ok (disk : List Nat) (start len : Nat) (h : start + len ≤ disk.length) :
    readRange disk start len = .ok ((disk.drop start).take len) := by
  rw [readRange]
  by_cases h0 : len = 0
  · rw [if_pos h0, h0]
    simp
  · rw [if_neg h0, if_pos h]

theorem slice_eq_of_agree (disk disk2 : List Nat) (start len : Nat)
    (hagree : ∀ i : Nat, start ≤ i → i < start + len → disk2[i]? = disk[i]?) :
    (disk2.drop start).take len = (disk.drop start).take len := by
  apply List.ext_getElem?
  intro n
  rw [List.getElem?_take, List.getElem?_take]
  by_cases hn : n < len
  · rw [if_pos hn, if_pos hn, List.getElem?_drop, List.getElem?_drop]
    exact hagree (start + n) (by omega) (by omega)
  · rw [if_neg hn, if_neg hn]

theorem beUint64_append (l extra : List Nat) (h : 8 ≤ l.length) :
    beUint64 (l ++ extra) = beUint64 l := by
  rw [beUint64, beUint64]
  have hg : ∀ i : Nat, i < 8 → (l ++ extra).getD i 0 = l.getD i 0 := by
    intro i hi
    rw [List.getD_eq_getElem?_getD, List.getD_eq_getElem?_getD]
    rw [List.getElem?_append, if_pos (by omega)]
  rw [hg 0 (by omega), hg 1 (by omega), hg 2 (by omega), hg 3 (by omega),
    hg 4 (by omega), hg 5 (by omega), hg 6 (by omega), hg 7 (by omega)]

theorem unmarshal_append (keys extra : List Nat) (h : DBKeyFullSize ≤ keys.length) :
    DBBKey.Unmarshal (keys ++ extra) = DBBKey.Unmarshal keys := by
  have h48 : DBKeyFullSize = 48 := rfl
  rw [DBBKey.Unmarshal, DBBKey.Unmarshal]
  rw [if_neg (by rw [List.length_append]; omega), if_neg (by omega)]
  have htake : (keys ++ extra).take 32 = keys.take 32 := by
    rw [List.take_append_eq_append_take]
    have h32 : 32 - keys.length = 0 := by omega
    rw [h32]
    simp
  have hdrop32 : (keys ++ extra).drop 32 = keys.drop 32 ++ extra := by
    rw [List.drop_append_eq_append_drop]
    have h32 : 32 - keys.length = 0 := by omega
    rw [h32]
    simp
  have hdrop40 : (keys ++ extra).drop 40 = keys.drop 40 ++ extra := by
    rw [List.drop_append_eq_append_drop]
    have h40 : 40 - keys.length = 0 := by omega
    rw [h40]
    simp
  rw [htake, hdrop32, hdrop40]
  rw [beUint64_append _ _ (by rw [List.length_drop]; omega)]
  rw [beUint64_append _ _ (by rw [List.length_drop]; omega)]

theorem scanKeysF_succ_eq (fuel : Nat) :
    ∀ (keys Key : List Nat), keys.length ≤ fuel →
    scanKeysF (fuel + 1) keys Key = scanKeysF fuel keys Key := by
  have h48 : DBKeyFullSize = 48 := rfl
  induction fuel with
  | zero =>
    intro keys Key hlen
    rw [scanKeysF, scanKeysF]
    rw [if_neg (by omega)]
  | succ n ih =>
    intro keys Key hlen
    rw [scanKeysF]
    conv_rhs => rw [scanKeysF]
    by_cases hl : DBKeyFullSize ≤ keys.length
    · rw [if_pos hl, if_pos hl]
      by_cases hk : keys.take 32 = Key
      · rw [if_pos hk, if_pos hk]
      · rw [if_neg hk, if_neg hk]
        exact ih (keys.drop DBKeyFullSize) Key (by rw [List.length_drop]; omega)
    · rw [if_neg hl, if_neg hl]

theorem scanKeysF_of_le (d : Nat) :
    ∀ (keys Key : List Nat), keys.length ≤ d + keys.length →
    scanKeysF (keys.length + d) keys Key = scanKeys keys Key := by
  induction d with
  | zero =>
    intro keys Key _
    rw [scanKeys, Nat.add_zero]
  | succ n ih =>
    intro keys Key _
    have h1 : keys.length + (n + 1) = (keys.length + n) + 1 := by omega
    rw [h1, scanKeysF_succ_eq (keys.length + n) keys Key (by omega)]
    exact ih keys Key (by omega)

theorem scanKeysF_ge (fuel : Nat) (keys Key : List Nat) (h : keys.length ≤ fuel) :
    scanKeysF fuel keys Key = scanKeys keys Key := by
  have h1 : fuel = keys.length + (fuel - keys.length) := by omega
  rw [h1]
  exact scanKeysF_of_le (fuel - keys.length) keys Key (by omega)

theorem scanKeysF_append (fuel : Nat) :
    ∀ (keys extra Key : List Nat) (d : DBBKey),
    scanKeysF fuel keys Key = .ok d →
    scanKeysF fuel (keys ++ extra) Key = .ok d := by
  have h48 : DBKeyFullSize = 48 := rfl
  induction fuel with
  | zero =>
    intro keys extra Key d h
    exact absurd h (by rw [scanKeysF]; simp)
  | succ n ih =>
    intro keys extra Key d h
    rw [scanKeysF] at h ⊢
    by_cases hl : DBKeyFullSize ≤ keys.length
    · rw [if_pos hl] at h
      rw [if_pos (by rw [List.length_append]; omega)]
      have htake : (keys ++ extra).take 32 = keys.take 32 := by
        rw [List.take_append_eq_append_take]
        have h32 : 32 - keys.length = 0 := by omega
        rw [h32]
        simp
      rw [htake]
      by_cases hk : keys.take 32 = Key
      · rw [if_pos hk] at h
        rw [if_pos hk, unmarshal_append keys extra hl]
        exact h
      · rw [if_neg hk] at h
        rw [if_neg hk]
        have hdrop : (keys ++ extra).drop DBKeyFullSize = keys.drop DBKeyFullSize ++ extra := by
          rw [List.drop_append_eq_append_drop]
          have hd : DBKeyFullSize - keys.length = 0 := by omega
          rw [hd]
          simp
        rw [hdrop]
        exact ih (keys.drop DBKeyFullSize) extra Key d h
    · rw [if_neg hl] at h
      exact absurd h (by simp)

theorem scanKeys_append (keys extra Key : List Nat) (d : DBBKey)
    (h : scanKeys keys Key = .ok d) :
    scanKeys (keys ++ extra) Key = .ok d := by
  rw [scanKeys, List.length_append]
  have h1 : scanKeysF (keys.length + extra.length) keys Key = .ok d := by
    rw [scanKeysF_ge _ _ _ (by omega)]
    exact h
  exact scanKeysF_append (keys.length + extra.length) keys extra Key d h1

/-- Two KeySet regions [Start, End) that do not overlap (an empty region is
disjoint from everything once empties are pinned at the header, since its
End equals the minimal Start). -/
def Disjoint2 (a b : KeySet) : Prop := a.End_ ≤ b.Start ∨ b.End_ ≤ a.Start

instance (a b : KeySet) : Decidable (Disjoint2 a b) := by
  rw [Disjoint2]
  infer_instance

theorem disjoint2_symm (a b : KeySet) (h : Disjoint2 a b) : Disjoint2 b a := by
  rw [Disjoint2] at h ⊢
  tauto

theorem insertKS_perm (x : KeySet) :
    ∀ l : List KeySet, (insertKS x l).Perm (x :: l) := by
  intro l
  induction l with
  | nil =>
    rw [insertKS]
  | cons y ys ih =>
    rw [insertKS]
    by_cases h : x.End_ ≤ y.End_
    · rw [if_pos h]
    · rw [if_neg h]
      exact (ih.cons y).trans (List.Perm.swap x y ys)

theorem sortByEnd_perm (l : List KeySet) : (sortByEnd l).Perm l := by
  induction l with
  | nil =>
    exact List.Perm.refl _
  | cons x xs ih =>
    have h1 : sortByEnd (x :: xs) = insertKS x (sortByEnd xs) := rfl
    rw [h1]
    exact (insertKS_perm x (sortByEnd xs)).trans (ih.cons x)

theorem mem_insertKS (x z : KeySet) :
    ∀ l : List KeySet, z ∈ insertKS x l ↔ z = x ∨ z ∈ l := by
  intro l
  induction l with
  | nil =>
    rw [insertKS]
    simp
  | cons y ys ih =>
    rw [insertKS]
    by_cases h : x.End_ ≤ y.End_
    · rw [if_pos h]
      simp
    · rw [if_neg h]
      simp only [List.mem_cons, ih]
      tauto

theorem pairwise_end_insertKS (x : KeySet) :
    ∀ l : List KeySet, l.Pairwise (fun a b => a.End_ ≤ b.End_) →
    (insertKS x l).Pairwise (fun a b => a.End_ ≤ b.End_) := by
  intro l
  induction l with
  | nil =>
    intro _
    rw [insertKS]
    simp
  | cons y ys ih =>
    intro hl
    obtain ⟨hy, hys⟩ := List.pairwise_cons.mp hl
    rw [insertKS]
    by_cases h : x.End_ ≤ y.End_
    · rw [if_pos h]
      refine List.pairwise_cons.mpr ⟨?_, hl⟩
      intro z hz
      rcases List.mem_cons.mp hz with hzy | hzr
      · subst hzy
        exact h
      · exact le_trans h (hy z hzr)
    · rw [if_neg h]
      refine List.pairwise_cons.mpr ⟨?_, ih hys⟩
      intro z hz
      rcases (mem_insertKS x z ys).mp hz with hzx | hzr
      · subst hzx
        omega
      · exact hy z hzr

theorem pairwise_end_sortByEnd (l : List KeySet) :
    (sortByEnd l).Pairwise (fun a b => a.End_ ≤ b.End_) := by
  induction l with
  | nil =>
    rw [sortByEnd]
    simp
  | cons x xs ih =>
    exact pairwise_end_insertKS x (sortByEnd xs) ih

theorem pairwise_disjoint_set (l : List KeySet) (index : Nat) (x : KeySet)
    (hp : l.Pairwise Disjoint2)
    (hx : ∀ m : Nat, (hm : m < l.length) → m ≠ index → Disjoint2 x (l.get ⟨m, hm⟩)) :
    (l.set index x).Pairwise Disjoint2 := by
  apply List.pairwise_iff_getElem.mpr
  intro i j hi hj hij
  rw [List.length_set] at hi hj
  rw [List.getElem_set, List.getElem_set]
  by_cases hii : index = i
  · subst hii
    rw [if_pos rfl, if_neg (by omega)]
    exact hx j hj (by omega)
  · rw [if_neg hii]
    by_cases hjj : index = j
    · subst hjj
      rw [if_pos rfl]
      exact disjoint2_symm _ _ (hx i hi (by omega))
    · rw [if_neg hjj]
      exact List.pairwise_iff_getElem.mp hp i j hi hj hij

/-- Correctness of the free-space walk: on an End-sorted list of pairwise
disjoint regions bounded by [H0, D] with empties pinned at H0, starting at
an offset below every Start, the returned slot of `newLen` bytes stays
inside [H0, D] and is disjoint from every region. -/
theorem findSlot_spec (H0 D : Nat) (newLen : Nat) (hpos : 0 < newLen) (hD : D < U64) :
    ∀ (l : List KeySet) (offset : Nat),
    l.Pairwise (fun a b => a.End_ ≤ b.End_) →
    l.Pairwise Disjoint2 →
    (∀ ks ∈ l, H0 ≤ ks.Start ∧ ks.Start ≤ ks.End_ ∧ ks.End_ ≤ D) →
    (∀ ks ∈ l, ks.Start = ks.End_ → ks.Start = H0) →
    (∀ ks ∈ l, offset ≤ ks.Start) →
    H0 ≤ offset → offset ≤ D →
    H0 ≤ findSlot l offset newLen ∧
    offset ≤ findSlot l offset newLen ∧
    findSlot l offset newLen ≤ D ∧
    (∀ ks ∈ l, findSlot l offset newLen + newLen ≤ ks.Start ∨
      ks.End_ ≤ findSlot l offset newLen) := by
  intro l
  induction l with
  | nil =>
    intro offset _ _ _ _ _ hH hDo
    refine ⟨hH, le_refl _, hDo, ?_⟩
    intro ks hks
    exact absurd hks (List.not_mem_nil ks)
  | cons ks rest ih =>
    intro offset hsorted hdisj hbounds hpinned hoff hH hDo
    obtain ⟨hsortedhd, hsortedtl⟩ := List.pairwise_cons.mp hsorted
    obtain ⟨hdisjhd, hdisjtl⟩ := List.pairwise_cons.mp hdisj
    obtain ⟨hbS, hbSE, hbED⟩ := hbounds ks (List.mem_cons_self _ _)
    have hoffks : offset ≤ ks.Start := hoff ks (List.mem_cons_self _ _)
    have hsub : sub64 ks.Start offset = ks.Start - offset :=
      sub64_of_le ks.Start offset hoffks (by omega)
    rw [findSlot]
    by_cases hfit : newLen ≤ sub64 ks.Start offset
    · rw [if_pos hfit]
      rw [hsub] at hfit
      have hksne : ks.Start ≠ ks.End_ := by
        intro he
        have hpin := hpinned ks (List.mem_cons_self _ _) he
        omega
      refine ⟨hH, le_refl _, hDo, ?_⟩
      intro ks2 hks2
      rcases List.mem_cons.mp hks2 with hk | hk
      · subst hk
        left
        omega
      · obtain ⟨hb2S, hb2SE, hb2ED⟩ := hbounds ks2 (List.mem_cons_of_mem _ hk)
        by_cases hks2e : ks2.Start = ks2.End_
        · right
          have hpin2 := hpinned ks2 (List.mem_cons_of_mem _ hk) hks2e
          omega
        · rcases hdisjhd ks2 hk with hd1 | hd2
          · left
            omega
          · exfalso
            have hends := hsortedhd ks2 hk
            omega
    · rw [if_neg hfit]
      have hrec := ih ks.End_ hsortedtl hdisjtl
        (fun z hz => hbounds z (List.mem_cons_of_mem _ hz))
        (fun z hz => hpinned z (List.mem_cons_of_mem _ hz))
        (fun z hz => ?_) (by omega) hbED
      · obtain ⟨c1, c2, c3, c4⟩ := hrec
        refine ⟨c1, by omega, c3, ?_⟩
        intro ks2 hks2
        rcases List.mem_cons.mp hks2 with hk | hk
        · subst hk
          right
          omega
        · exact c4 ks2 hk
      · obtain ⟨hb2S, hb2SE, hb2ED⟩ := hbounds z (List.mem_cons_of_mem _ hz)
        by_cases hze : z.Start = z.End_
        · have hpin2 := hpinned z (List.mem_cons_of_mem _ hz) hze
          have hends := hsortedhd z hz
          omega
        · by_cases hkse : ks.Start = ks.End_
          · have hpin := hpinned ks (List.mem_cons_self _ _) hkse
            omega
          · rcases hdisjhd z hz with hd1 | hd2
            · exact hd1
            · exfalso
              have hends := hsortedhd z hz
              omega

theorem getD_set_gen {α : Type} (l : List α) (lo i : Nat) (cur d : α) :
    (l.set lo cur).getD i d = if i = lo ∧ i < l.length then cur else l.getD i d := by
  by_cases h : i = lo
  · subst h
    by_cases hl : i < l.length
    · simp [List.getD_eq_getElem?_getD, List.getElem?_set, hl]
    · have h1 : l[i]? = none := List.getElem?_eq_none (by omega)
      simp [List.getD_eq_getElem?_getD, List.getElem?_set, hl, h1]
  · simp only [List.getD_eq_getElem?_getD, List.getElem?_set,
      if_neg (fun he : lo = i => h he.symm), if_neg (fun hc : i = lo ∧ i < l.length => h hc.1)]

/-- Reachable-state invariant of a HistoryFile: a positive bin count, one
KeySet per bin, every region inside [HeaderSize, file size] with
Start ≤ End, empty regions pinned at the header boundary, and pairwise
disjoint regions. -/
def HistoryFile.Inv (hf : HistoryFile) : Prop :=
  0 < hf.OffsetCnt ∧
  hf.KeySets.length = hf.OffsetCnt ∧
  hf.HeaderSize ≤ hf.disk.length ∧
  (∀ ks ∈ hf.KeySets, hf.HeaderSize ≤ ks.Start ∧ ks.Start ≤ ks.End_ ∧
    ks.End_ ≤ hf.disk.length) ∧
  (∀ ks ∈ hf.KeySets, ks.Start = ks.End_ → ks.Start = hf.HeaderSize) ∧
  hf.KeySets.Pairwise Disjoint2

instance (hf : HistoryFile) : Decidable hf.Inv := by
  rw [HistoryFile.Inv]
  infer_instance

/-- Slot offset chosen by UpdateKeySet for a given bin and batch. -/
def uksNewLen (hf : HistoryFile) (index : Nat) (keyList : List Nat) : Nat :=
  (sub64 (hf.KeySets.getD index ⟨0, 0⟩).End_ (hf.KeySets.getD index ⟨0, 0⟩).Start +
    keyList.length) % U64

/-- Offset at which UpdateKeySet writes the combined region. -/
def uksOffset (hf : HistoryFile) (index : Nat) (keyList : List Nat) : Nat :=
  findSlot (sortByEnd hf.KeySets) hf.HeaderSize (uksNewLen hf index keyList)

theorem updateKeySet_eq (hf : HistoryFile) (index : Nat) (keyList buffer : List Nat)
    (hkl : ¬ keyList.length = 0)
    (hrr : readRange hf.disk (hf.KeySets.getD index ⟨0, 0⟩).Start
      (sub64 (hf.KeySets.getD index ⟨0, 0⟩).End_ (hf.KeySets.getD index ⟨0, 0⟩).Start) =
      .ok buffer) :
    hf.UpdateKeySet index keyList = .ok { hf with
      disk := writeAtList hf.disk (uksOffset hf index keyList) (buffer ++ keyList),
      KeySets := hf.KeySets.set index ⟨uksOffset hf index keyList,
        (uksOffset hf index keyList + uksNewLen hf index keyList) % U64⟩ } := by
  rw [HistoryFile.UpdateKeySet, if_neg hkl]
  simp only []
  rw [hrr]
  rfl

theorem historyFile_get_ok_elim (hf : HistoryFile) (Key : List Nat) (dd : DBBKey)
    (h : hf.Get Key = .ok dd) :
    sub64 (hf.KeySets.getD (hf.Index Key) ⟨0, 0⟩).End_
      (hf.KeySets.getD (hf.Index Key) ⟨0, 0⟩).Start ≠ 0 ∧
    ∃ keys : List Nat,
      readRange hf.disk (hf.KeySets.getD (hf.Index Key) ⟨0, 0⟩).Start
        (sub64 (hf.KeySets.getD (hf.Index Key) ⟨0, 0⟩).End_
          (hf.KeySets.getD (hf.Index Key) ⟨0, 0⟩).Start) = .ok keys ∧
      scanKeys keys Key = .ok dd := by
  rw [HistoryFile.Get] at h
  by_cases h0 : sub64 (hf.KeySets.getD (hf.Index Key) ⟨0, 0⟩).End_
      (hf.KeySets.getD (hf.Index Key) ⟨0, 0⟩).Start = 0
  · rw [if_pos h0] at h
    exact absurd h (by simp)
  · rw [if_neg h0] at h
    refine ⟨h0, ?_⟩
    cases hm : readRange hf.disk (hf.KeySets.getD (hf.Index Key) ⟨0, 0⟩).Start
        (sub64 (hf.KeySets.getD (hf.Index Key) ⟨0, 0⟩).End_
          (hf.KeySets.getD (hf.Index Key) ⟨0, 0⟩).Start) with
    | error e =>
      rw [hm] at h
      exact absurd h (by simp)
    | ok keys =>
      rw [hm] at h
      exact ⟨keys, rfl, h⟩

theorem historyFile_get_ok_intro (hf : HistoryFile) (Key : List Nat) (dd : DBBKey)
    (keys : List Nat)
    (h0 : sub64 (hf.KeySets.getD (hf.Index Key) ⟨0, 0⟩).End_
      (hf.KeySets.getD (hf.Index Key) ⟨0, 0⟩).Start ≠ 0)
    (hrr : readRange hf.disk (hf.KeySets.getD (hf.Index Key) ⟨0, 0⟩).Start
      (sub64 (hf.KeySets.getD (hf.Index Key) ⟨0, 0⟩).End_
        (hf.KeySets.getD (hf.Index Key) ⟨0, 0⟩).Start) = .ok keys)
    (hscan : scanKeys keys Key = .ok dd) :
    hf.Get Key = .ok dd := by
  rw [HistoryFile.Get]
  rw [if_neg h0, hrr]
  exact hscan

/-- UpdateKeySet on an invariant-satisfying HistoryFile always succeeds,
preserves the invariant, grows the file by at most its own size plus the
batch, and preserves every Get result. -/
theorem updateKeySet_preserves (hf : HistoryFile) (index : Nat) (keyList : List Nat)
    (hInv : hf.Inv) (hidx : index < hf.OffsetCnt)
    (hbound : 2 * hf.disk.length + keyList.length < U64) :
    ∃ hf2 : HistoryFile, hf.UpdateKeySet index keyList = .ok hf2 ∧
      hf2.Inv ∧
      hf2.OffsetCnt = hf.OffsetCnt ∧
      hf.disk.length ≤ hf2.disk.length ∧
      hf2.disk.length ≤ 2 * hf.disk.length + keyList.length ∧
      (∀ Key dd, hf.Get Key = .ok dd → hf2.Get Key = .ok dd) := by
  obtain ⟨h0, h1, h2, h3, h4, h5⟩ := hInv
  by_cases hkl : keyList.length = 0
  · refine ⟨hf, ?_, ⟨h0, h1, h2, h3, h4, h5⟩, rfl, le_refl _, by omega, fun Key dd h => h⟩
    rw [HistoryFile.UpdateKeySet, if_pos hkl]
  · have hDlt : hf.disk.length < U64 := by omega
    have hidxlen : index < hf.KeySets.length := by omega
    have hks0get : hf.KeySets.getD index ⟨0, 0⟩ = hf.KeySets.get ⟨index, hidxlen⟩ := by
      rw [List.getD_eq_getElem?_getD, List.getElem?_eq_getElem hidxlen]
      rfl
    have hks0mem : hf.KeySets.getD index ⟨0, 0⟩ ∈ hf.KeySets := by
      rw [hks0get]
      exact List.getElem_mem hidxlen
    obtain ⟨hS, hSE, hED⟩ := h3 _ hks0mem
    have hCL : sub64 (hf.KeySets.getD index ⟨0, 0⟩).End_
        (hf.KeySets.getD index ⟨0, 0⟩).Start =
        (hf.KeySets.getD index ⟨0, 0⟩).End_ - (hf.KeySets.getD index ⟨0, 0⟩).Start :=
      sub64_of_le _ _ hSE (by omega)
    have hNL : uksNewLen hf index keyList =
        ((hf.KeySets.getD index ⟨0, 0⟩).End_ - (hf.KeySets.getD index ⟨0, 0⟩).Start) +
          keyList.length := by
      rw [uksNewLen, hCL]
      exact Nat.mod_eq_of_lt (by omega)
    have hNLpos : 0 < uksNewLen hf index keyList := by omega
    have hNLle : uksNewLen hf index keyList ≤ hf.disk.length + keyList.length := by omega
    have hpermP : (sortByEnd hf.KeySets).Pairwise Disjoint2 :=
      (List.Perm.pairwise_iff (fun hq => disjoint2_symm _ _ hq)
        (sortByEnd_perm hf.KeySets)).mpr h5
    obtain ⟨c1, c2, c3, c4s⟩ := findSlot_spec hf.HeaderSize hf.disk.length
      (uksNewLen hf index keyList) hNLpos hDlt (sortByEnd hf.KeySets) hf.HeaderSize
      (pairwise_end_sortByEnd _) hpermP
      (fun z hz => h3 z ((sortByEnd_perm hf.KeySets).mem_iff.mp hz))
      (fun z hz => h4 z ((sortByEnd_perm hf.KeySets).mem_iff.mp hz))
      (fun z hz => (h3 z ((sortByEnd_perm hf.KeySets).mem_iff.mp hz)).1)
      (le_refl _) h2
    have hOdef : findSlot (sortByEnd hf.KeySets) hf.HeaderSize (uksNewLen hf index keyList) =
        uksOffset hf index keyList := rfl
    rw [hOdef] at c1 c2 c3 c4s
    have c4 : ∀ ks ∈ hf.KeySets,
        uksOffset hf index keyList + uksNewLen hf index keyList ≤ ks.Start ∨
        ks.End_ ≤ uksOffset hf index keyList :=
      fun ks hks => c4s ks ((sortByEnd_perm hf.KeySets).mem_iff.mpr hks)
    have hrr : readRange hf.disk (hf.KeySets.getD index ⟨0, 0⟩).Start
        (sub64 (hf.KeySets.getD index ⟨0, 0⟩).End_ (hf.KeySets.getD index ⟨0, 0⟩).Start) =
        .ok ((hf.disk.drop (hf.KeySets.getD index ⟨0, 0⟩).Start).take
          ((hf.KeySets.getD index ⟨0, 0⟩).End_ - (hf.KeySets.getD index ⟨0, 0⟩).Start)) := by
      rw [hCL]
      exact readRange_ok _ _ _ (by omega)
    have hupd := updateKeySet_eq hf index keyList _ hkl hrr
    have hbuflen : ((hf.disk.drop (hf.KeySets.getD index ⟨0, 0⟩).Start).take
        ((hf.KeySets.getD index ⟨0, 0⟩).End_ - (hf.KeySets.getD index ⟨0, 0⟩).Start)).length =
        (hf.KeySets.getD index ⟨0, 0⟩).End_ - (hf.KeySets.getD index ⟨0, 0⟩).Start := by
      rw [List.length_take, List.length_drop]
      omega
    have hmod : (uksOffset hf index keyList + uksNewLen hf index keyList) % U64 =
        uksOffset hf index keyList + uksNewLen hf index keyList :=
      Nat.mod_eq_of_lt (by omega)
    have hdlen2 : (writeAtList hf.disk (uksOffset hf index keyList)
        ((hf.disk.drop (hf.KeySets.getD index ⟨0, 0⟩).Start).take
          ((hf.KeySets.getD index ⟨0, 0⟩).End_ - (hf.KeySets.getD index ⟨0, 0⟩).Start) ++
          keyList)).length =
        max hf.disk.length (uksOffset hf index keyList + uksNewLen hf index keyList) := by
      rw [writeAtList_length, List.length_append, hbuflen]
      omega
    refine ⟨_, hupd, ?_, rfl, ?_, ?_, ?_⟩
    · -- invariant of the updated state
      refine ⟨h0, ?_, ?_, ?_, ?_, ?_⟩
      · rw [List.length_set]
        exact h1
      · show hf.HeaderSize ≤ (writeAtList hf.disk _ _).length
        rw [hdlen2]
        omega
      · intro ks hks
        rcases List.mem_or_eq_of_mem_set hks with hold | hnew
        · obtain ⟨hbS, hbSE, hbED⟩ := h3 ks hold
          refine ⟨hbS, hbSE, ?_⟩
          show ks.End_ ≤ (writeAtList hf.disk _ _).length
          rw [hdlen2]
          omega
        · subst hnew
          refine ⟨c1, ?_, ?_⟩
          · show uksOffset hf index keyList ≤ _ % U64
            rw [hmod]
            omega
          · show _ % U64 ≤ (writeAtList hf.disk _ _).length
            rw [hmod, hdlen2]
            omega
      · intro ks hks
        rcases List.mem_or_eq_of_mem_set hks with hold | hnew
        · exact h4 ks hold
        · subst hnew
          intro he
          simp only [hmod] at he
          omega
      · apply pairwise_disjoint_set _ _ _ h5
        intro m hm hmne
        have hmem : hf.KeySets.get ⟨m, hm⟩ ∈ hf.KeySets := List.getElem_mem hm
        rcases c4 _ hmem with hca | hcb
        · rw [Disjoint2]
          left
          show _ % U64 ≤ _
          rw [hmod]
          exact hca
        · rw [Disjoint2]
          right
          exact hcb
    · show hf.disk.length ≤ (writeAtList hf.disk _ _).length
      rw [hdlen2]
      omega
    · show (writeAtList hf.disk _ _).length ≤ 2 * hf.disk.length + keyList.length
      rw [hdlen2]
      omega
    · -- Get preservation
      intro Key dd hget
      obtain ⟨hlen0, keys, hrrK, hscan⟩ := historyFile_get_ok_elim hf Key dd hget
      have hidxK : hf.Index Key < hf.OffsetCnt := by
        rw [HistoryFile.Index]
        exact Nat.mod_lt _ h0
      have hidxKlen : hf.Index Key < hf.KeySets.length := by omega
      have hkget : hf.KeySets.getD (hf.Index Key) ⟨0, 0⟩ =
          hf.KeySets.get ⟨hf.Index Key, hidxKlen⟩ := by
        rw [List.getD_eq_getElem?_getD, List.getElem?_eq_getElem hidxKlen]
        rfl
      have hkmem : hf.KeySets.getD (hf.Index Key) ⟨0, 0⟩ ∈ hf.KeySets := by
        rw [hkget]
        exact List.getElem_mem hidxKlen
      obtain ⟨hkS, hkSE, hkED⟩ := h3 _ hkmem
      have hkCL : sub64 (hf.KeySets.getD (hf.Index Key) ⟨0, 0⟩).End_
          (hf.KeySets.getD (hf.Index Key) ⟨0, 0⟩).Start =
          (hf.KeySets.getD (hf.Index Key) ⟨0, 0⟩).End_ -
            (hf.KeySets.getD (hf.Index Key) ⟨0, 0⟩).Start :=
        sub64_of_le _ _ hkSE (by omega)
      have hkeysval : keys = (hf.disk.drop (hf.KeySets.getD (hf.Index Key) ⟨0, 0⟩).Start).take
          ((hf.KeySets.getD (hf.Index Key) ⟨0, 0⟩).End_ -
            (hf.KeySets.getD (hf.Index Key) ⟨0, 0⟩).Start) := by
        rw [hkCL] at hrrK
        rw [readRange_ok _ _ _ (by omega)] at hrrK
        exact (Except.ok.inj hrrK).symm
      set hf2 : HistoryFile := { hf with
        disk := writeAtList hf.disk (uksOffset hf index keyList)
          ((hf.disk.drop (hf.KeySets.getD index ⟨0, 0⟩).Start).take
            ((hf.KeySets.getD index ⟨0, 0⟩).End_ - (hf.KeySets.getD index ⟨0, 0⟩).Start) ++
            keyList),
        KeySets := hf.KeySets.set index ⟨uksOffset hf index keyList,
          (uksOffset hf index keyList + uksNewLen hf index keyList) % U64⟩ } with hhf2
      have hindex2 : hf2.Index Key = hf.Index Key := rfl
      have hks2 : hf2.KeySets = hf.KeySets.set index ⟨uksOffset hf index keyList,
          (uksOffset hf index keyList + uksNewLen hf index keyList) % U64⟩ := rfl
      have hdisk2 : hf2.disk = writeAtList hf.disk (uksOffset hf index keyList)
          ((hf.disk.drop (hf.KeySets.getD index ⟨0, 0⟩).Start).take
            ((hf.KeySets.getD index ⟨0, 0⟩).End_ - (hf.KeySets.getD index ⟨0, 0⟩).Start) ++
            keyList) := rfl
      by_cases hii : hf.Index Key = index
      · -- the updated bin: the new region is the old bytes plus the batch
        have hg2S : (hf2.KeySets.getD (hf2.Index Key) ⟨0, 0⟩).Start =
            uksOffset hf index keyList := by
          rw [hindex2, hii, hks2, getD_set_gen, if_pos ⟨rfl, by omega⟩]
        have hg2E : (hf2.KeySets.getD (hf2.Index Key) ⟨0, 0⟩).End_ =
            uksOffset hf index keyList + uksNewLen hf index keyList := by
          rw [hindex2, hii, hks2, getD_set_gen, if_pos ⟨rfl, by omega⟩]
          exact hmod
        apply historyFile_get_ok_intro hf2 Key dd
          ((hf.disk.drop (hf.KeySets.getD index ⟨0, 0⟩).Start).take
            ((hf.KeySets.getD index ⟨0, 0⟩).End_ - (hf.KeySets.getD index ⟨0, 0⟩).Start) ++
            keyList)
        · rw [hg2E, hg2S, sub64_of_le _ _ (by omega) (by omega)]
          omega
        · rw [hg2S, hg2E, sub64_of_le _ _ (by omega) (by omega)]
          have hsz : uksOffset hf index keyList + uksNewLen hf index keyList -
              uksOffset hf index keyList = uksNewLen hf index keyList := by omega
          rw [hsz]
          have hbnd : uksOffset hf index keyList + uksNewLen hf index keyList ≤
              hf2.disk.length := by
            rw [hdisk2, hdlen2]
            omega
          rw [readRange_ok _ _ _ hbnd]
          congr 1
          rw [hdisk2]
          have hdata : ((hf.disk.drop (hf.KeySets.getD index ⟨0, 0⟩).Start).take
              ((hf.KeySets.getD index ⟨0, 0⟩).End_ -
                (hf.KeySets.getD index ⟨0, 0⟩).Start) ++ keyList).length =
              uksNewLen hf index keyList := by
            rw [List.length_append, hbuflen]
            omega
          rw [← hdata]
          exact writeAtList_read_back hf.disk (uksOffset hf index keyList) _ (by omega)
        · have hkeq : keys = (hf.disk.drop (hf.KeySets.getD index ⟨0, 0⟩).Start).take
              ((hf.KeySets.getD index ⟨0, 0⟩).End_ -
                (hf.KeySets.getD index ⟨0, 0⟩).Start) := by
            rw [hkeysval, hii]
          rw [← hkeq]
          exact scanKeys_append keys keyList Key dd hscan
      · -- an untouched bin: the region bytes are unchanged
        have hget2 : hf2.KeySets.getD (hf2.Index Key) ⟨0, 0⟩ =
            hf.KeySets.getD (hf.Index Key) ⟨0, 0⟩ := by
          rw [hindex2, hks2, getD_set_gen, if_neg (fun hc => hii hc.1)]
        apply historyFile_get_ok_intro hf2 Key dd keys
        · rw [hget2]
          exact hlen0
        · rw [hget2, hkCL]
          have hbnd2 : (hf.KeySets.getD (hf.Index Key) ⟨0, 0⟩).Start +
              ((hf.KeySets.getD (hf.Index Key) ⟨0, 0⟩).End_ -
                (hf.KeySets.getD (hf.Index Key) ⟨0, 0⟩).Start) ≤ hf2.disk.length := by
            rw [hdisk2, hdlen2]
            omega
          rw [readRange_ok _ _ _ hbnd2, hkeysval]
          congr 1
          rw [hdisk2]
          apply slice_eq_of_agree
          intro i hi1 hi2
          apply writeAtList_getElem_outside
          · omega
          · rcases c4 _ hkmem with hca | hcb
            · right
              rw [List.length_append, hbuflen]
              omega
            · left
              omega
        · exact hscan

theorem keysets_flatten_length (l : List KeySet) :
    ((l.map KeySet.Marshal).flatten).length = KeySetSize * l.length := by
  induction l with
  | nil =>
    simp
  | cons x xs ih =>
    simp only [List.map_cons, List.flatten_cons, List.length_append, ih, List.length_cons]
    have hx : (KeySet.Marshal x).length = KeySetSize := by
      rw [KeySet.Marshal, List.length_append, putUint64_length, putUint64_length]
      rfl
    rw [hx]
    ring

theorem historyFile_marshal_length (hf : HistoryFile) :
    hf.Marshal.length = 4 + KeySetSize * hf.KeySets.length := by
  rw [HistoryFile.Marshal, List.length_append, keysets_flatten_length]
  have h4 : (putUint32 hf.OffsetCnt).length = 4 := by
    simp [putUint32]
  rw [h4]

/-- Rewriting the header leaves the KeySet table, the invariant and every
Get result untouched: header bytes live below every region. -/
theorem writeHeader_preserves (hf : HistoryFile) (hInv : hf.Inv)
    (hU : hf.disk.length < U64) :
    hf.writeHeader.Inv ∧ hf.writeHeader.OffsetCnt = hf.OffsetCnt ∧
    hf.writeHeader.KeySets = hf.KeySets ∧
    (∀ Key dd, hf.Get Key = .ok dd → hf.writeHeader.Get Key = .ok dd) := by
  obtain ⟨h0, h1, h2, h3, h4, h5⟩ := hInv
  have hml : hf.Marshal.length = hf.HeaderSize := by
    rw [historyFile_marshal_length, h1]
    rfl
  have hdisk : hf.writeHeader.disk = writeAtList hf.disk 0 hf.Marshal := rfl
  have hdlen : hf.writeHeader.disk.length = hf.disk.length := by
    rw [hdisk, writeAtList_length, hml]
    omega
  have hKS : hf.writeHeader.KeySets = hf.KeySets := rfl
  have hHS : hf.writeHeader.HeaderSize = hf.HeaderSize := rfl
  refine ⟨⟨h0, ?_, ?_, ?_, ?_, ?_⟩, rfl, hKS, ?_⟩
  · rw [hKS]
    exact h1
  · rw [hHS, hdlen]
    exact h2
  · intro ks hks
    rw [hKS] at hks
    obtain ⟨ha, hb, hc⟩ := h3 ks hks
    exact ⟨ha, hb, by rw [hdlen]; exact hc⟩
  · intro ks hks
    rw [hKS] at hks
    exact h4 ks hks
  · rw [hKS]
    exact h5
  · intro Key dd hget
    obtain ⟨hlen0, keys, hrrK, hscan⟩ := historyFile_get_ok_elim hf Key dd hget
    have hidxK : hf.Index Key < hf.OffsetCnt := by
      rw [HistoryFile.Index]
      exact Nat.mod_lt _ h0
    have hidxKlen : hf.Index Key < hf.KeySets.length := by omega
    have hkget : hf.KeySets.getD (hf.Index Key) ⟨0, 0⟩ =
        hf.KeySets.get ⟨hf.Index Key, hidxKlen⟩ := by
      rw [List.getD_eq_getElem?_getD, List.getElem?_eq_getElem hidxKlen]
      rfl
    have hkmem : hf.KeySets.getD (hf.Index Key) ⟨0, 0⟩ ∈ hf.KeySets := by
      rw [hkget]
      exact List.getElem_mem hidxKlen
    obtain ⟨hkS, hkSE, hkED⟩ := h3 _ hkmem
    have hkCL : sub64 (hf.KeySets.getD (hf.Index Key) ⟨0, 0⟩).End_
        (hf.KeySets.getD (hf.Index Key) ⟨0, 0⟩).Start =
        (hf.KeySets.getD (hf.Index Key) ⟨0, 0⟩).End_ -
          (hf.KeySets.getD (hf.Index Key) ⟨0, 0⟩).Start :=
      sub64_of_le _ _ hkSE (by omega)
    have hkeysval : keys = (hf.disk.drop (hf.KeySets.getD (hf.Index Key) ⟨0, 0⟩).Start).take
        ((hf.KeySets.getD (hf.Index Key) ⟨0, 0⟩).End_ -
          (hf.KeySets.getD (hf.Index Key) ⟨0, 0⟩).Start) := by
      rw [hkCL] at hrrK
      rw [readRange_ok _ _ _ (by omega)] at hrrK
      exact (Except.ok.inj hrrK).symm
    have hgetW : hf.writeHeader.KeySets.getD (hf.writeHeader.Index Key) ⟨0, 0⟩ =
        hf.KeySets.getD (hf.Index Key) ⟨0, 0⟩ := rfl
    apply historyFile_get_ok_intro hf.writeHeader Key dd keys
    · rw [hgetW]
      exact hlen0
    · rw [hgetW, hkCL]
      have hbnd : (hf.KeySets.getD (hf.Index Key) ⟨0, 0⟩).Start +
          ((hf.KeySets.getD (hf.Index Key) ⟨0, 0⟩).End_ -
            (hf.KeySets.getD (hf.Index Key) ⟨0, 0⟩).Start) ≤ hf.writeHeader.disk.length := by
        rw [hdlen]
        omega
      rw [readRange_ok _ _ _ hbnd, hkeysval]
      congr 1
      rw [hdisk]
      apply slice_eq_of_agree
      intro i hi1 hi2
      apply writeAtList_getElem_outside
      · omega
      · right
        rw [hml]
        omega
    · exact hscan

theorem addKeysLoopF_zero (hf : HistoryFile) (keyListA : List Nat)
    (index startOff endOff : Nat) (keyPtr : List Nat) :
    HistoryFile.addKeysLoopF 0 hf keyListA index startOff endOff keyPtr =
    hf.UpdateKeySet index ((keyListA.drop startOff).take (endOff - startOff)) := by
  rw [HistoryFile.addKeysLoopF]
  cases hU : hf.UpdateKeySet index ((keyListA.drop startOff).take (endOff - startOff)) with
  | error e => rfl
  | ok x => rfl

theorem addKeysLoopF_nil (fuel : Nat) (hf : HistoryFile) (keyListA : List Nat)
    (index startOff endOff : Nat) :
    HistoryFile.addKeysLoopF (fuel + 1) hf keyListA index startOff endOff [] =
    hf.UpdateKeySet index ((keyListA.drop startOff).take (endOff - startOff)) := by
  rw [HistoryFile.addKeysLoopF]
  cases hU : hf.UpdateKeySet index ((keyListA.drop startOff).take (endOff - startOff)) with
  | error e => rfl
  | ok x => rfl

theorem addKeysLoopF_cons (fuel : Nat) (hf : HistoryFile) (keyListA : List Nat)
    (index startOff endOff : Nat) (b : Nat) (rest : List Nat) :
    HistoryFile.addKeysLoopF (fuel + 1) hf keyListA index startOff endOff (b :: rest) =
    (if hf.Index ((b :: rest).take 32) = index then
      HistoryFile.addKeysLoopF fuel hf keyListA index startOff (endOff + DBKeyFullSize)
        ((b :: rest).drop DBKeyFullSize)
    else if hf.Index ((b :: rest).take 32) < index then .error .notSorted
    else
      match hf.UpdateKeySet index ((keyListA.drop startOff).take (endOff - startOff)) with
      | .error e => .error e
      | .ok hf2 =>
        HistoryFile.addKeysLoopF fuel hf2 keyListA (hf.Index ((b :: rest).take 32)) endOff
          (endOff + DBKeyFullSize) ((b :: rest).drop DBKeyFullSize)) := rfl

/-- The AddKeys run loop preserves the invariant, the bin count and every
Get result, under a generous no-overflow budget that shrinks with the
remaining records. -/
theorem addKeysLoop_preserves (keyListA : List Nat) :
    ∀ (fuel : Nat) (hf : HistoryFile) (index startOff endOff : Nat) (keyPtr : List Nat)
      (hf2 : HistoryFile),
    hf.Inv → index < hf.OffsetCnt → keyPtr.length % DBKeyFullSize = 0 →
    (hf.disk.length + keyListA.length + 1) *
      2 ^ (keyPtr.length / DBKeyFullSize + 2) < U64 →
    HistoryFile.addKeysLoopF fuel hf keyListA index startOff endOff keyPtr = .ok hf2 →
    hf2.Inv ∧ hf2.OffsetCnt = hf.OffsetCnt ∧
    (∀ Key dd, hf.Get Key = .ok dd → hf2.Get Key = .ok dd) ∧
    hf2.disk.length < U64 := by
  have h48 : DBKeyFullSize = 48 := rfl
  intro fuel
  induction fuel with
  | zero =>
    intro hf index startOff endOff keyPtr hf2 hInv hidx hmodP hB hloop
    rw [addKeysLoopF_zero] at hloop
    have hchunk : ((keyListA.drop startOff).take (endOff - startOff)).length ≤
        keyListA.length := by
      rw [List.length_take, List.length_drop]
      omega
    have h4 : 4 ≤ 2 ^ (keyPtr.length / DBKeyFullSize + 2) := by
      have hp : (2:Nat) ^ 2 ≤ 2 ^ (keyPtr.length / DBKeyFullSize + 2) :=
        Nat.pow_le_pow_right (by omega) (Nat.le_add_left 2 _)
      simpa using hp
    have hmul : (hf.disk.length + keyListA.length + 1) * 4 ≤
        (hf.disk.length + keyListA.length + 1) *
          2 ^ (keyPtr.length / DBKeyFullSize + 2) :=
      Nat.mul_le_mul_left _ h4
    have hlast : (hf.disk.length + keyListA.length + 1) * 4 < U64 :=
      lt_of_le_of_lt hmul hB
    obtain ⟨hf2x, hupd_eq, hInv2, hcnt2, hg1, hg2, hGet2⟩ :=
      updateKeySet_preserves hf index ((keyListA.drop startOff).take (endOff - startOff))
        hInv hidx (by omega)
    rw [hupd_eq] at hloop
    have heq : hf2x = hf2 := Except.ok.inj hloop
    subst heq
    exact ⟨hInv2, hcnt2, hGet2, by omega⟩
  | succ n ih =>
    intro hf index startOff endOff keyPtr hf2 hInv hidx hmodP hB hloop
    cases keyPtr with
    | nil =>
      rw [addKeysLoopF_nil] at hloop
      have hchunk : ((keyListA.drop startOff).take (endOff - startOff)).length ≤
          keyListA.length := by
        rw [List.length_take, List.length_drop]
        omega
      have h4 : 4 ≤ 2 ^ ((List.nil : List Nat).length / DBKeyFullSize + 2) := by
        have hp : (2:Nat) ^ 2 ≤ 2 ^ ((List.nil : List Nat).length / DBKeyFullSize + 2) :=
          Nat.pow_le_pow_right (by omega) (Nat.le_add_left 2 _)
        simpa using hp
      have hmul : (hf.disk.length + keyListA.length + 1) * 4 ≤
          (hf.disk.length + keyListA.length + 1) *
            2 ^ ((List.nil : List Nat).length / DBKeyFullSize + 2) :=
        Nat.mul_le_mul_left _ h4
      have hlast : (hf.disk.length + keyListA.length + 1) * 4 < U64 :=
        lt_of_le_of_lt hmul hB
      obtain ⟨hf2x, hupd_eq, hInv2, hcnt2, hg1, hg2, hGet2⟩ :=
        updateKeySet_preserves hf index ((keyListA.drop startOff).take (endOff - startOff))
          hInv hidx (by omega)
      rw [hupd_eq] at hloop
      have heq : hf2x = hf2 := Except.ok.inj hloop
      subst heq
      exact ⟨hInv2, hcnt2, hGet2, by omega⟩
    | cons b rest =>
      rw [addKeysLoopF_cons] at hloop
      have hlenP : (b :: rest : List Nat).length = rest.length + 1 := rfl
      have hge48 : 48 ≤ (b :: rest : List Nat).length := by
        rw [h48] at hmodP
        rw [hlenP] at hmodP ⊢
        omega
      have hdroplen : ((b :: rest : List Nat).drop DBKeyFullSize).length =
          (b :: rest : List Nat).length - 48 := by
        rw [List.length_drop, h48]
      have hdropmod : ((b :: rest : List Nat).drop DBKeyFullSize).length %
          DBKeyFullSize = 0 := by
        rw [hdroplen, h48]
        rw [h48] at hmodP
        omega
      have hdropdiv : ((b :: rest : List Nat).drop DBKeyFullSize).length /
          DBKeyFullSize + 2 + 1 = (b :: rest : List Nat).length / DBKeyFullSize + 2 := by
        rw [hdroplen, h48]
        rw [h48] at hmodP
        omega
      by_cases hkeq : hf.Index ((b :: rest).take 32) = index
      · rw [if_pos hkeq] at hloop
        have hBd : (hf.disk.length + keyListA.length + 1) *
            2 ^ (((b :: rest : List Nat).drop DBKeyFullSize).length / DBKeyFullSize + 2) <
            U64 := by
          have hple : (2:Nat) ^ (((b :: rest : List Nat).drop DBKeyFullSize).length /
              DBKeyFullSize + 2) ≤
              2 ^ ((b :: rest : List Nat).length / DBKeyFullSize + 2) :=
            Nat.pow_le_pow_right (by omega) (by rw [← hdropdiv]; exact Nat.le_succ _)
          exact lt_of_le_of_lt (Nat.mul_le_mul_left _ hple) hB
        exact ih hf index startOff (endOff + DBKeyFullSize)
          ((b :: rest).drop DBKeyFullSize) hf2 hInv hidx hdropmod hBd hloop
      · rw [if_neg hkeq] at hloop
        by_cases hklt : hf.Index ((b :: rest).take 32) < index
        · rw [if_pos hklt] at hloop
          exact absurd hloop (by simp)
        · rw [if_neg hklt] at hloop
          have hchunk : ((keyListA.drop startOff).take (endOff - startOff)).length ≤
              keyListA.length := by
            rw [List.length_take, List.length_drop]
            omega
          have h4 : 4 ≤ 2 ^ ((b :: rest : List Nat).length / DBKeyFullSize + 2) := by
            have hp : (2:Nat) ^ 2 ≤ 2 ^ ((b :: rest : List Nat).length / DBKeyFullSize + 2) :=
              Nat.pow_le_pow_right (by omega) (Nat.le_add_left 2 _)
            simpa using hp
          have hmul : (hf.disk.length + keyListA.length + 1) * 4 ≤
              (hf.disk.length + keyListA.length + 1) *
                2 ^ ((b :: rest : List Nat).length / DBKeyFullSize + 2) :=
            Nat.mul_le_mul_left _ h4
          have hlast : (hf.disk.length + keyListA.length + 1) * 4 < U64 :=
            lt_of_le_of_lt hmul hB
          obtain ⟨hfm, hupd_eq, hInvm, hcntm, hgrow1, hgrow2, hGetm⟩ :=
            updateKeySet_preserves hf index
              ((keyListA.drop startOff).take (endOff - startOff)) hInv hidx (by omega)
          simp only [hupd_eq] at hloop
          have h0cnt : 0 < hf.OffsetCnt := hInv.1
          have hkidx : hf.Index ((b :: rest).take 32) < hfm.OffsetCnt := by
            rw [hcntm, HistoryFile.Index]
            exact Nat.mod_lt _ h0cnt
          have hBm : (hfm.disk.length + keyListA.length + 1) *
              2 ^ (((b :: rest : List Nat).drop DBKeyFullSize).length /
                DBKeyFullSize + 2) < U64 := by
            have hstep : hfm.disk.length + keyListA.length + 1 ≤
                2 * (hf.disk.length + keyListA.length + 1) := by omega
            calc (hfm.disk.length + keyListA.length + 1) *
                2 ^ (((b :: rest : List Nat).drop DBKeyFullSize).length /
                  DBKeyFullSize + 2)
                ≤ (2 * (hf.disk.length + keyListA.length + 1)) *
                  2 ^ (((b :: rest : List Nat).drop DBKeyFullSize).length /
                    DBKeyFullSize + 2) :=
                  Nat.mul_le_mul_right _ hstep
              _ = (hf.disk.length + keyListA.length + 1) *
                  (2 ^ (((b :: rest : List Nat).drop DBKeyFullSize).length /
                    DBKeyFullSize + 2) * 2) := by ring
              _ = (hf.disk.length + keyListA.length + 1) *
                  2 ^ ((b :: rest : List Nat).length / DBKeyFullSize + 2) := by
                  rw [← pow_succ, hdropdiv]
              _ < U64 := hB
          obtain ⟨hInv2, hcnt2, hGet2, hU2⟩ := ih hfm (hf.Index ((b :: rest).take 32))
            endOff (endOff + DBKeyFullSize) ((b :: rest).drop DBKeyFullSize) hf2 hInvm hkidx
            hdropmod hBm hloop
          refine ⟨hInv2, by rw [hcnt2, hcntm], ?_, hU2⟩
          intro Key dd hg
          exact hGet2 Key dd (hGetm Key dd hg)

/-- C3: for every invariant-satisfying HistoryFile and every record buffer,
when AddKeys returns successfully (which in particular requires the buffer
to be bin-sorted) and the sizes stay below the uint64 range, every key that
Get resolved before the call still resolves to the same descriptor
afterwards, and the KeySet regions of distinct bins remain pairwise
disjoint. -/
theorem historyFile_addKeys_preserves (hf : HistoryFile) (keyList : List Nat)
    (hf2 : HistoryFile)
    (hInv : hf.Inv)
    (hbound : (hf.disk.length + keyList.length + 1) *
      2 ^ (keyList.length / DBKeyFullSize + 2) < U64)
    (hOK : hf.AddKeys keyList = .ok hf2) :
    (∀ Key dd, hf.Get Key = .ok dd → hf2.Get Key = .ok dd) ∧
    hf2.KeySets.Pairwise Disjoint2 := by
  rw [HistoryFile.AddKeys] at hOK
  by_cases h0 : keyList.length = 0
  · rw [if_pos h0] at hOK
    have heq : hf = hf2 := Except.ok.inj hOK
    subst heq
    exact ⟨fun Key dd h => h, hInv.2.2.2.2.2⟩
  · rw [if_neg h0] at hOK
    by_cases h1 : keyList.length % DBKeyFullSize ≠ 0
    · rw [if_pos h1] at hOK
      exact absurd hOK (by simp)
    · rw [if_neg h1] at hOK
      have h1m : keyList.length % DBKeyFullSize = 0 := not_not.mp h1
      have h0cnt : 0 < hf.OffsetCnt := hInv.1
      have hidx : hf.Index (keyList.take 32) < hf.OffsetCnt := by
        rw [HistoryFile.Index]
        exact Nat.mod_lt _ h0cnt
      cases hL : HistoryFile.addKeysLoopF keyList.length hf keyList
          (hf.Index (keyList.take 32)) 0 0 keyList with
      | error e =>
        rw [hL] at hOK
        exact absurd hOK (by simp)
      | ok hfm =>
        rw [hL] at hOK
        have heq : hfm.writeHeader = hf2 := Except.ok.inj hOK
        obtain ⟨hInvm, hcntm, hGetm, hUm⟩ := addKeysLoop_preserves keyList keyList.length
          hf (hf.Index (keyList.take 32)) 0 0 keyList hfm hInv hidx h1m hbound hL
        obtain ⟨hWInv, hWcnt, hWKS, hWGet⟩ := writeHeader_preserves hfm hInvm hUm
        subst heq
        refine ⟨?_, ?_⟩
        · intro Key dd hg
          exact hWGet Key dd (hGetm Key dd hg)
        · rw [hWKS]
          exact hInvm.2.2.2.2.2

/-- History file with two bins, as created fresh by NewHistoryFile. -/
def c3hf : HistoryFile :=
  match NewHistoryFile 2 with
  | .ok hf => hf
  | .error _ => { OffsetCnt := 1, KeySets := [⟨20, 20⟩], disk := List.replicate 20 0 }

/-- A bin-sorted buffer of two records: keyA lands in bin 0, keyB in bin 1. -/
def c3keyList : List Nat := DBBKey.Bytes ⟨5, 7⟩ keyA ++ DBBKey.Bytes ⟨9, 11⟩ keyB

/-- The history file after adding the two records. -/
def c3hf2 : HistoryFile :=
  match c3hf.AddKeys c3keyList with
  | .ok hf => hf
  | .error _ => c3hf

theorem historyFile_addKeys_preserves_witness :
    (c3hf.Inv ∧
     (c3hf.disk.length + c3keyList.length + 1) *
       2 ^ (c3keyList.length / DBKeyFullSize + 2) < U64 ∧
     c3hf.AddKeys c3keyList = .ok c3hf2 ∧
     c3hf2.Get keyA = .ok ⟨5, 7⟩) ∧
    c3hf2.KeySets.Pairwise Disjoint2 := by
  refine ⟨⟨by decide, by decide, by decide, by decide⟩, ?_⟩
  exact (historyFile_addKeys_preserves c3hf c3keyList c3hf2 (by decide) (by decide)
    (by decide)).2

end BlockchainDB
